import Mathlib

set_option maxRecDepth 10000

/-!
Verification of the slotted-page storage layer (src/store/file.rs) and the
error formatting of the request handler (src/server/handler.rs) of the
Blastoise relational database engine.

Machine integers (u8 page bytes, u32 header fields, usize indices and
addresses) are embedded as Nat; byte values carry explicit `< 256` bounds
where they matter.  Fallible operations (Rust assert!/panic!/unwrap) are
embedded as Option/Except results.
-/

/-- Modelled from the spec: the OS page size returned by
utils::libwrapper::get_page_size, which is not under src/.  The spec fixes
the page size to the OS page size; on the targeted platform this is 4096
bytes. -/
def get_page_size : Nat := 4096

/-- Embeds fn get_slot_sum (file.rs:529-534).  header_size is
2 * size_of::<u32>() = 8; the function returns
(8 * (page_size - header_size) - 7) / (8 * tuple_len + 1). -/
def get_slot_sum (tuple_len : Nat) : Nat :=
  (8 * (get_page_size - 8) - 7) / (8 * tuple_len + 1)

/-- Occupancy bitmap (struct BitMap, file.rs:45-49).  data is the byte array
that the source's DataPtr points at, one Nat per u8 byte. -/
structure BitMap where
  data : List Nat
  slot_sum : Nat
deriving DecidableEq

/-- Byte number i of the bitmap, as read by read::<u8>(data.offset(i)). -/
def BitMap.byteAt (bm : BitMap) (i : Nat) : Nat := bm.data.getD i 0

/-- Occupancy bit of slot index i: bit i % 8 of byte i / 8, the
byte_offset/bit_offset arithmetic used throughout the source. -/
def BitMap.bit (bm : BitMap) (i : Nat) : Bool :=
  (bm.byteAt (i / 8)).testBit (i % 8)

/-- Embeds BitMap::get_byte_size (file.rs:91-93). -/
def BitMap.get_byte_size (bm : BitMap) : Nat := (bm.slot_sum + 7) / 8

/-- Well-formedness of a bitmap as laid out by FilePage::new: the byte array
has exactly (slot_sum + 7) / 8 bytes, each one a u8 value, and (source
comments at file.rs:63 and file.rs:81) every bit whose index is at least
slot_sum is 0. -/
def BitMap.wf (bm : BitMap) : Prop :=
  bm.data.length = bm.get_byte_size ∧
  (∀ b ∈ bm.data, b < 256) ∧
  (∀ i, i < 8 * bm.get_byte_size → bm.slot_sum ≤ i → bm.bit i = false)

instance (bm : BitMap) : Decidable bm.wf := by
  unfold BitMap.wf; infer_instance

/-- Embeds BitMap::set_inuse (file.rs:99-114): n = 1 << bit_offset, then
either a | n or a & (255 - n) is written back to the byte.  The source
asserts index < slot_sum at entry; the call sites modelled here establish
that bound. -/
def BitMap.set_inuse (bm : BitMap) (index : Nat) (inuse : Bool) : BitMap :=
  let byte_offset := index / 8
  let bit_offset := index % 8
  let n := 2 ^ bit_offset
  let a := bm.byteAt byte_offset
  let b := if inuse then a ||| n else a &&& (255 - n)
  { bm with data := bm.data.set byte_offset b }

/-- Embeds BitMap::is_inuse (file.rs:115-125): (a & (1 << bit_offset)) > 0,
i.e. the occupancy bit, without the source's index assertion (call sites
establish it). -/
def BitMap.is_inuse (bm : BitMap) (index : Nat) : Bool := bm.bit index

/-- Embeds BitMap::clean (file.rs:94-98): zero the bitmap bytes. -/
def BitMap.clean (bm : BitMap) : BitMap :=
  { bm with data := List.replicate bm.get_byte_size 0 }

/-- Inner loop of BitMap::get_first_free_slot (file.rs:78-87): from bit 0
upward, the first b with (255 - 2^b) | n < 255, i.e. the first zero bit of
byte n.  The source loop carries no explicit bound; it is entered only when
n != 255, so a zero bit exists among positions 0..7 and the loop returns
before the mask overflows.  The recursion here is bounded by the remaining
bit positions, which the source argument shows is never exhausted. -/
def find_zero_bit (n : Nat) : Nat → Nat → Nat
  | b, 0 => b
  | b, k + 1 => if (255 - 2 ^ b) ||| n < 255 then b else find_zero_bit n (b + 1) k

/-- Outer while loop of BitMap::get_first_free_slot (file.rs:73-90), phrased
as recursion on the number of bytes still to scan. -/
def BitMap.ffs_go (bm : BitMap) : Nat → Nat → Nat
  | _, 0 => bm.slot_sum
  | count, k + 1 =>
    if count < (bm.slot_sum + 7) / 8 then
      let n := bm.byteAt count
      if n = 255 then bm.ffs_go (count + 1) k
      else count * 8 + find_zero_bit n 0 8
    else bm.slot_sum

/-- Embeds BitMap::get_first_free_slot (file.rs:73-90). -/
def BitMap.get_first_free_slot (bm : BitMap) : Nat :=
  bm.ffs_go 0 ((bm.slot_sum + 7) / 8)

/-- Inner loop of BitMap::next_tuple_index (file.rs:62-69): scan byte n from
bit position b upward for the first set bit (mask & n > 0 with
mask = 1 << b).  The source loop is entered only when 2^b <= n, so with
n < 256 a set bit exists at some position in b..7 and the loop returns
before the recursion bound of remaining bit positions is exhausted. -/
def find_set_bit (n : Nat) : Nat → Nat → Nat
  | b, 0 => b
  | b, k + 1 => if n.testBit b then b else find_set_bit n (b + 1) k

/-- Outer while loop of BitMap::next_tuple_index (file.rs:58-70), phrased as
recursion on the number of bytes still to scan; count and bit_count are the
source's loop variables. -/
def BitMap.nti_go (bm : BitMap) : Nat → Nat → Nat → Nat
  | _, _, 0 => bm.slot_sum
  | count, bit_count, k + 1 =>
    if count < (bm.slot_sum + 7) / 8 then
      let n := bm.byteAt count
      if n < 2 ^ bit_count then bm.nti_go (count + 1) 0 k
      else count * 8 + find_set_bit n bit_count (8 - bit_count)
    else bm.slot_sum

/-- Embeds BitMap::next_tuple_index (file.rs:52-72): an early return of
slot_sum when from >= slot_sum, then the byte scan starting at byte
from / 8, bit from % 8. -/
def BitMap.next_tuple_index (bm : BitMap) (start : Nat) : Nat :=
  if bm.slot_sum ≤ start then bm.slot_sum
  else bm.nti_go (start / 8) (start % 8) ((bm.slot_sum + 7) / 8 - start / 8)

/-- Page header (struct PageHeader, file.rs:20-25): slot_sum and
first_free_slot.  save_to_page_data (file.rs:28-34) flushes exactly these
two u32 fields into the page bytes; the fields themselves are authoritative
in this model. -/
structure PageHeader where
  slot_sum : Nat
  first_free_slot : Nat
deriving DecidableEq

/-- Slotted page (struct FilePage, file.rs:128-135).  mem_page's buffer is
represented by data_addr (its address, used by is_in_page and by the
pointer arithmetic of delete) together with the decoded views: the header,
the bitmap bytes, and slot_bytes, the bytes behind the source's tuple_data
pointer. -/
structure FilePage where
  header : PageHeader
  bitmap : BitMap
  slot_bytes : List Nat
  data_addr : Nat
  tuple_len : Nat
deriving DecidableEq

/-- Embeds FilePage::new (file.rs:138-159): slot_sum = get_slot_sum
tuple_len, first_free_slot = 0.  The freshly wrapped buffer's current
bitmap and slot-region contents are passed in. -/
def FilePage.new (data_addr tuple_len : Nat) (bitmap_bytes slot_bytes : List Nat) : FilePage :=
  { header := { slot_sum := get_slot_sum tuple_len, first_free_slot := 0 }
    bitmap := { data := bitmap_bytes, slot_sum := get_slot_sum tuple_len }
    slot_bytes := slot_bytes
    data_addr := data_addr
    tuple_len := tuple_len }

/-- Embeds FilePage::init_empty_page (file.rs:160-163): flush the header
and zero the bitmap. -/
def FilePage.init_empty_page (p : FilePage) : FilePage :=
  { p with bitmap := p.bitmap.clean }

/-- Embeds FilePage::is_inuse (file.rs:170-172). -/
def FilePage.is_inuse (p : FilePage) (index : Nat) : Bool := p.bitmap.is_inuse index

/-- Embeds FilePage::set_inuse (file.rs:173-175). -/
def FilePage.set_inuse (p : FilePage) (index : Nat) (inuse : Bool) : FilePage :=
  { p with bitmap := p.bitmap.set_inuse index inuse }

/-- Embeds FilePage::is_full (file.rs:259-261). -/
def FilePage.is_full (p : FilePage) : Bool :=
  p.header.first_free_slot == p.bitmap.slot_sum

/-- Address of the slot region: the tuple_data pointer computed by
FilePage::new as data + header_size + bitmap_size, with
header_size = 2 * size_of::<u32>() = 8. -/
def FilePage.tuple_data (p : FilePage) : Nat :=
  p.data_addr + 8 + p.bitmap.get_byte_size

/-- Embeds FilePage::is_in_page (file.rs:262-266). -/
def FilePage.is_in_page (p : FilePage) (ptr : Nat) : Bool :=
  decide (p.data_addr ≤ ptr) && decide (ptr < p.data_addr + get_page_size)

/-- Embeds FilePage::delete (file.rs:267-272): index = (ptr - tuple_data) /
tuple_len, assert!(is_inuse(index)) — is_inuse itself asserts
index < slot_sum — then clear the bit.  An assertion failure aborts (none);
a ptr below tuple_data overflows the source's usize subtraction in debug
mode and is likewise none.  Nothing checks that ptr falls on a slot
boundary. -/
def FilePage.delete (p : FilePage) (ptr : Nat) : Option FilePage :=
  if ptr < p.tuple_data then none
  else
    let d := ptr - p.tuple_data
    let index := d / p.tuple_len
    if index < p.bitmap.slot_sum ∧ p.bitmap.bit index then
      some (p.set_inuse index false)
    else none

/-- Value literal types (parser::common::ValueType; the parser module is
not under src/): the variants matched by FilePage::insert (file.rs:191-218)
and constructed by the repository's tests. -/
inductive ValueType where
  | Integer
  | Float
  | String
  | Null
deriving DecidableEq

/-- Value expression (parser::common::ValueExpr as consumed by file.rs):
the literal text and its type. -/
structure ValueExpr where
  value : String
  value_type : ValueType
deriving DecidableEq

/-- Attribute types (store::table::AttrType; table.rs is not under src/):
the variants matched by file.rs and the repository's tests. -/
inductive AttrType where
  | Int
  | Float
  | Char (len : Nat)
deriving DecidableEq

/-- Tuple descriptor (store::tuple::TupleDesc as consumed by file.rs). -/
structure TupleDesc where
  attr_desc : List AttrType
  tuple_len : Nat
deriving DecidableEq

/-- Digit-accumulation loop of an integer parse over the literal's
characters. -/
def parse_digits : List Char → Nat → Option Nat
  | [], acc => some acc
  | c :: cs, acc =>
    if 48 ≤ c.toNat ∧ c.toNat ≤ 57 then parse_digits cs (acc * 10 + (c.toNat - 48))
    else none

/-- Models str::parse::<i32> on the literal text: an optional sign followed
by at least one digit, rejecting values outside the i32 range. -/
def parse_i32 (s : String) : Option Int :=
  let core : Option (Bool × Nat) :=
    match s.data with
    | [] => none
    | '-' :: rest =>
      match rest with
      | [] => none
      | _ => (parse_digits rest 0).map (fun n => (true, n))
    | '+' :: rest =>
      match rest with
      | [] => none
      | _ => (parse_digits rest 0).map (fun n => (false, n))
    | ds => (parse_digits ds 0).map (fun n => (false, n))
  match core with
  | some (neg, n) =>
    if neg then (if n ≤ 2 ^ 31 then some (-(n : Int)) else none)
    else (if n < 2 ^ 31 then some (n : Int) else none)
  | none => none

/-- Little-endian bytes of an i32 value as stored by write::<i32>. -/
def i32_bytes (n : Int) : List Nat :=
  let m := (n % 2 ^ 32).toNat
  [m % 256, m / 256 % 256, m / 2 ^ 16 % 256, m / 2 ^ 24 % 256]

/-- Bytes stored by write::<f32> (file.rs:198-202).  The IEEE-754 bit
pattern is not modelled — no claim inspects float bytes — and parsing an
f32 from a lexer-produced numeric literal does not fail, so the write is
four placeholder bytes. -/
def f32_bytes (_s : String) : List Nat := [0, 0, 0, 0]

/-- Models utils::pointer::write_string (not under src/) as used at
file.rs:203-207: the first len bytes of the string are stored in the
len-byte region, zero padded, inside an aligned_len stride.  No claim
inspects these bytes. -/
def write_string_bytes (s : String) (len aligned_len : Nat) : List Nat :=
  let bs := (s.data.map (fun c => c.toNat % 256)).take len
  bs ++ List.replicate (aligned_len - bs.length) 0

/-- Byte-wise store of bs into l starting at position off (the effect of
the source's raw-pointer writes into the slot region). -/
def list_write (l : List Nat) : Nat → List Nat → List Nat
  | _, [] => l
  | off, b :: rest => list_write (l.set off b) (off + 1) rest

/-- Writes the byte list bs at byte offset off of the slot region. -/
def FilePage.write_bytes (p : FilePage) (off : Nat) (bs : List Nat) : FilePage :=
  { p with slot_bytes := list_write p.slot_bytes off bs }

/-- Value-writing loop of FilePage::insert (file.rs:191-219).  The running
pointer is the byte offset off into the slot region; each arm advances it
by the attribute's width.  A failing unwrap of the integer parse, or the
catch-all panic arm, aborts execution with the page in its current state,
modelled as an error result carrying that state.  The iteration is the
source's zip, stopping at the shorter list. -/
def FilePage.insert_values (p : FilePage) (off : Nat) :
    List ValueExpr → List AttrType → Except FilePage FilePage
  | [], _ => Except.ok p
  | _ :: _, [] => Except.ok p
  | v :: vs, d :: ds =>
    match v.value_type, d with
    | ValueType.Integer, AttrType.Int =>
      match parse_i32 v.value with
      | some n => (p.write_bytes off (i32_bytes n)).insert_values (off + 4) vs ds
      | none => Except.error p
    | ValueType.Float, AttrType.Float =>
      (p.write_bytes off (f32_bytes v.value)).insert_values (off + 4) vs ds
    | ValueType.Integer, AttrType.Float =>
      (p.write_bytes off (f32_bytes v.value)).insert_values (off + 4) vs ds
    | ValueType.String, AttrType.Char len =>
      (p.write_bytes off (write_string_bytes v.value len ((len + 3) / 4 * 4))).insert_values
        (off + (len + 3) / 4 * 4) vs ds
    | ValueType.Null, AttrType.Int =>
      (p.write_bytes off [0, 0, 0, 0]).insert_values (off + 4) vs ds
    | ValueType.Null, AttrType.Float =>
      (p.write_bytes off [0, 0, 0, 0]).insert_values (off + 4) vs ds
    | ValueType.Null, AttrType.Char len =>
      (p.write_bytes off (List.replicate ((len + 3) / 4 * 4) 0)).insert_values
        (off + (len + 3) / 4 * 4) vs ds
    | _, _ => Except.error p

/-- Bitmap-and-header phase of FilePage::insert (file.rs:181-184): mark
first_free_slot occupied, recompute first_free_slot by the bitmap scan,
flush the header. -/
def FilePage.insert_mark (p : FilePage) : FilePage :=
  let p1 := p.set_inuse p.header.first_free_slot true
  { p1 with header := { p1.header with first_free_slot := p1.bitmap.get_first_free_slot } }

/-- Embeds FilePage::insert (file.rs:176-220).  The entry assertions — the
index bound inside is_inuse, the free-slot check, and the length check —
abort with the page untouched; then the slot is marked, the header
advanced, and the values written. -/
def FilePage.insert (p : FilePage) (value_list : List ValueExpr) (tuple_desc : TupleDesc) :
    Except FilePage FilePage :=
  if p.bitmap.slot_sum ≤ p.header.first_free_slot then Except.error p
  else if p.is_inuse p.header.first_free_slot then Except.error p
  else if value_list.length ≠ tuple_desc.attr_desc.length then Except.error p
  else
    p.insert_mark.insert_values (tuple_desc.tuple_len * p.header.first_free_slot)
      value_list tuple_desc.attr_desc

/-- Reachability of a slotted page from a given page by completed
FilePage::insert calls and assertion-passing FilePage::delete calls. -/
inductive PageReach : FilePage → FilePage → Prop where
  | refl (p : FilePage) : PageReach p p
  | insert (p q r : FilePage) (vl : List ValueExpr) (td : TupleDesc) :
      PageReach p q → q.insert vl td = Except.ok r → PageReach p r
  | delete (p q r : FilePage) (ptr : Nat) :
      PageReach p q → q.delete ptr = some r → PageReach p r

/-- Table file (struct TableFile, file.rs:278-287).  loaded_pages is the
HashMap<usize, FilePage> as an association list (one entry per page index;
iteration order is the list order); the OS file, its name and the catalog
reference live outside the model. -/
structure TableFile where
  loaded_pages : List (Nat × FilePage)
  page_sum : Nat
  first_free_page : Nat
  tuple_desc : TupleDesc
deriving DecidableEq

/-- HashMap::get on the loaded-pages association list: the first entry
with the given page index. -/
def pages_lookup (i : Nat) : List (Nat × FilePage) → Option FilePage
  | [] => none
  | (j, p) :: rest => if j = i then some p else pages_lookup i rest

/-- HashMap::get on the loaded-pages map. -/
def TableFile.lookup (f : TableFile) (i : Nat) : Option FilePage :=
  pages_lookup i f.loaded_pages

/-- Embeds TableFile::new (file.rs:290-304): no loaded pages, page_sum = 0,
first_free_page = 0 (the on-disk file is outside the model). -/
def TableFile.new (tuple_desc : TupleDesc) : TableFile :=
  { loaded_pages := [], page_sum := 0, first_free_page := 0, tuple_desc := tuple_desc }

/-- Embeds TableFile::get_page_slot_sum (file.rs:305-307). -/
def TableFile.get_page_slot_sum (f : TableFile) : Nat :=
  get_slot_sum f.tuple_desc.tuple_len

/-- Embeds TableFile::next_tuple_index (file.rs:353-362).  The source
asserts that the page is loaded; the claims using this definition assume
all pages loaded, so the none-for-unloaded branch is unreachable there. -/
def TableFile.next_tuple_index (f : TableFile) (page_index tuple_index : Nat) : Option Nat :=
  match f.lookup page_index with
  | some page =>
    let next := page.bitmap.next_tuple_index tuple_index
    if next = f.get_page_slot_sum then none else some next
  | none => none

/-- While loop of TableFileManager::get_next_position (file.rs:490-499),
phrased as recursion on the number of pages still to scan. -/
def TableFile.gnp_go (f : TableFile) (slot_sum : Nat) : Nat → Nat → Nat → Option Nat
  | _, _, 0 => none
  | page_index, tuple_index, k + 1 =>
    if page_index < f.page_sum then
      match f.next_tuple_index page_index tuple_index with
      | some i => some (page_index * slot_sum + i)
      | none => f.gnp_go slot_sum (page_index + 1) 0 k
    else none

/-- Embeds TableFileManager::get_next_position (file.rs:484-501) acting on
the table's file. -/
def TableFile.get_next_position (f : TableFile) (start : Nat) : Option Nat :=
  let slot_sum := f.get_page_slot_sum
  f.gnp_go slot_sum (start / slot_sum) (start % slot_sum) (f.page_sum - start / slot_sum)

/-- Linear search of TableFile::delete (file.rs:323-330) over the loaded
pages: delete inside the first page whose buffer contains ptr, or fall
through silently.  A failing assertion inside FilePage::delete aborts:
none. -/
def pages_delete (ptr : Nat) : List (Nat × FilePage) → Option (List (Nat × FilePage))
  | [] => some []
  | (i, page) :: rest =>
    if page.is_in_page ptr then (page.delete ptr).map (fun q => (i, q) :: rest)
    else (pages_delete ptr rest).map (fun r => (i, page) :: r)

/-- Embeds TableFile::delete (file.rs:323-330). -/
def TableFile.delete (f : TableFile) (ptr : Nat) : Option TableFile :=
  (pages_delete ptr f.loaded_pages).map (fun l => { f with loaded_pages := l })

/-- HashMap::get_mut followed by an in-place update: replace the entry with
key i. -/
def pages_store (i : Nat) (page : FilePage) : List (Nat × FilePage) → List (Nat × FilePage)
  | [] => []
  | (j, q) :: rest => if j = i then (j, page) :: rest else (j, q) :: pages_store i page rest

/-- Embeds TableFile::insert (file.rs:331-337): asserts
first_free_page < page_sum, unwraps the loaded page, asserts it is not
full, and inserts into it.  An abort carries the file with the page in the
state FilePage::insert left it. -/
def TableFile.insert (f : TableFile) (value_list : List ValueExpr) : Except TableFile TableFile :=
  if f.page_sum ≤ f.first_free_page then Except.error f
  else
    match f.lookup f.first_free_page with
    | none => Except.error f
    | some file_page =>
      if file_page.is_full then Except.error f
      else
        match file_page.insert value_list f.tuple_desc with
        | Except.ok p =>
          Except.ok { f with loaded_pages := pages_store f.first_free_page p f.loaded_pages }
        | Except.error p =>
          Except.error { f with loaded_pages := pages_store f.first_free_page p f.loaded_pages }

/-- While loop of TableFile::need_new_page (file.rs:363-373): advance
first_free_page past full loaded pages; recursion on the number of
remaining pages.  The source unwraps the loaded page; in the reachable
states of the claims every page below page_sum is loaded. -/
def TableFile.nnp_go (f : TableFile) : Nat → Nat → Nat
  | ffp, 0 => ffp
  | ffp, k + 1 =>
    if ffp < f.page_sum then
      match f.lookup ffp with
      | some page => if page.is_full then f.nnp_go (ffp + 1) k else ffp
      | none => ffp
    else ffp

/-- Embeds TableFile::need_new_page (file.rs:363-373): the file with
first_free_page advanced, and the returned boolean
first_free_page == page_sum. -/
def TableFile.need_new_page (f : TableFile) : TableFile × Bool :=
  let ffp := f.nnp_go f.first_free_page (f.page_sum - f.first_free_page)
  ({ f with first_free_page := ffp }, ffp == f.page_sum)

/-- Embeds TableFile::add_page (file.rs:374-379) for the fresh page
acquired in TableFileManager::insert (file.rs:436-441): its page index is
page_sum.  Modelled from the spec: the pool (buffer.rs, not under src/)
delivers the new page initialized empty — 'add_page(buffer) — wraps a
freshly acquired buffer as a new slotted page, initializes it empty, and
increments page_sum'. -/
def TableFile.add_page (f : TableFile) (data_addr : Nat) (slot_bytes : List Nat) : TableFile :=
  let file_page := (FilePage.new data_addr f.tuple_desc.tuple_len [] slot_bytes).init_empty_page
  { f with
    loaded_pages := f.loaded_pages ++ [(f.page_sum, file_page)]
    page_sum := f.page_sum + 1 }

/-- Embeds TableFileManager::insert (file.rs:432-443) acting on the table's
file: need_new_page, then add_page on a fresh pool buffer if needed, then
TableFile::insert. -/
def TableFileManager.insert (f : TableFile) (value_list : List ValueExpr)
    (data_addr : Nat) (slot_bytes : List Nat) : Except TableFile TableFile :=
  let fb := f.need_new_page
  let f2 := if fb.2 then fb.1.add_page data_addr slot_bytes else fb.1
  f2.insert value_list

/-- Reachability of a table file from a given file by completed
TableFileManager::insert calls and TableFile::delete calls. -/
inductive FileReach : TableFile → TableFile → Prop where
  | refl (f : TableFile) : FileReach f f
  | insert (f g f2 : TableFile) (vl : List ValueExpr) (addr : Nat) (bytes : List Nat) :
      FileReach f g → TableFileManager.insert g vl addr bytes = Except.ok f2 → FileReach f f2
  | delete (f g f2 : TableFile) (ptr : Nat) :
      FileReach f g → g.delete ptr = some f2 → FileReach f f2

/-- Compatibility of a literal value type with a declared attribute type:
exactly the pairs accepted by the match arms of FilePage::insert
(file.rs:191-218); every other pair falls into the catch-all panic arm. -/
def value_matches (vt : ValueType) (d : AttrType) : Bool :=
  match vt, d with
  | ValueType.Integer, AttrType.Int => true
  | ValueType.Float, AttrType.Float => true
  | ValueType.Integer, AttrType.Float => true
  | ValueType.String, AttrType.Char _ => true
  | ValueType.Null, AttrType.Int => true
  | ValueType.Null, AttrType.Float => true
  | ValueType.Null, AttrType.Char _ => true
  | _, _ => false

/-- Semantic error kinds surfaced by check_sem (parser::sem_check, not
under src/); only the type mismatch is relevant to the claims. -/
inductive SemError where
  | TypeMismatch
deriving DecidableEq

/-- Modelled from the spec: the semantic check applied to an insert
statement (parser::sem_check::check_sem is not under src/).  Per the spec,
type mismatches such as a string literal for an integer column fail with
TypeMismatch; the value list is checked pairwise against the declared
attribute types, with compatibility exactly as consumed by
FilePage::insert. -/
def check_insert_values : List ValueExpr → List AttrType → Option SemError
  | [], [] => none
  | v :: vs, d :: ds =>
    if value_matches v.value_type d then check_insert_values vs ds
    else some SemError.TypeMismatch
  | _, _ => some SemError.TypeMismatch

/-- Token types (parser::lexer::TokenType, not under src/).  handle_sql_err
distinguishes only TokenType::UnKnown from every other variant, so the
other variants are collapsed into Known. -/
inductive TokenType where
  | UnKnown
  | Known
deriving DecidableEq

/-- Token fields read by handle_sql_err (parser::lexer::Token, not under
src/). -/
structure Token where
  token_type : TokenType
  column : Nat
  value : String
deriving DecidableEq

/-- Compile error entry (parser::compile_error::CompileError, not under
src/): the fields read by handle_sql_err.  error_type holds the Debug
rendering of the CompileErrorType variant, the text the source's format
string prints for it. -/
structure CompileError where
  error_type : String
  token : Token
  error_msg : String
deriving DecidableEq

/-- Execution error (exec::error::ExecError, not under src/): the fields
read by handle_exec_err; error_type holds the Debug rendering of the
variant. -/
structure ExecError where
  error_type : String
  error_msg : String
deriving DecidableEq

/-- Models Rust's String::pop: remove the last character, if any. -/
def str_pop (s : String) : String := String.mk s.data.dropLast

/-- Per-entry formatting of handle_sql_err (handler.rs:58-63): entries with
an UnKnown token omit column and token text. -/
def fmt_sql_err (err : CompileError) : String :=
  match err.token.token_type with
  | TokenType.UnKnown => err.error_type ++ ": " ++ err.error_msg
  | TokenType.Known =>
    err.error_type ++ " " ++ toString err.token.column ++ " `" ++
      err.token.value ++ "`: " ++ err.error_msg

/-- Embeds fn handle_sql_err (handler.rs:55-69): format each entry, push a
newline after each, then pop the trailing newline. -/
def handle_sql_err (err_list : List CompileError) : String :=
  str_pop (err_list.foldl (fun err_msg err => (err_msg ++ fmt_sql_err err).push '\n') "")

/-- Embeds fn handle_exec_err (handler.rs:71-73). -/
def handle_exec_err (err : ExecError) : String :=
  err.error_type ++ ": " ++ err.error_msg

/-- State carried by an Except result of FilePage::insert: the page after a
completed insert, or the page at the moment of the abort. -/
def exceptState (e : Except FilePage FilePage) : FilePage :=
  match e with
  | Except.ok q => q
  | Except.error q => q

/-- Concrete page trace: a freshly initialized empty page for an
int-column table (tuple width 4). -/
def tracePage0 : FilePage := (FilePage.new 0 4 [] []).init_empty_page

/-- Concrete integer literal value. -/
def traceValue : ValueExpr := { value := "5", value_type := ValueType.Integer }

/-- Concrete tuple descriptor of one int column. -/
def traceTd : TupleDesc := { attr_desc := [AttrType.Int], tuple_len := 4 }

/-- The page after inserting one tuple into tracePage0. -/
def tracePage1 : FilePage := exceptState (tracePage0.insert [traceValue] traceTd)

/-- The page after deleting that tuple again (pointer to slot 0). -/
def tracePage2 : FilePage := (tracePage1.delete tracePage1.tuple_data).getD tracePage1

/-- The page after a further insert into tracePage2. -/
def tracePage3 : FilePage := exceptState (tracePage2.insert [traceValue] traceTd)

/-- Invariant of a table file reachable by inserts and deletes: the
first-free-page cursor never exceeds the page count, every page index
below page_sum is loaded, loaded entries carry indices below page_sum,
and every loaded page below first_free_page passes the source's fullness
test is_full (first_free_slot = slot_sum). -/
def TableFile.inv (f : TableFile) : Prop :=
  f.first_free_page ≤ f.page_sum ∧
  (∀ i < f.page_sum, (f.lookup i).isSome = true) ∧
  (∀ e ∈ f.loaded_pages, e.1 < f.page_sum) ∧
  (∀ i < f.first_free_page, (f.lookup i).all FilePage.is_full = true)

instance (f : TableFile) : Decidable f.inv := by
  unfold TableFile.inv; infer_instance

/-- State carried by an Except result of TableFile::insert. -/
def exceptFileState (e : Except TableFile TableFile) : TableFile :=
  match e with
  | Except.ok f => f
  | Except.error f => f

/-- Concrete one-slot-per-page table: a char(2041) column gives tuple
width 2044 and slot_sum 1 for the 4096-byte page. -/
def traceFileTd : TupleDesc := { attr_desc := [AttrType.Char 2041], tuple_len := 2044 }

/-- Concrete null literal value. -/
def traceNull : ValueExpr := { value := "", value_type := ValueType.Null }

/-- Fresh table file of the one-slot-per-page table. -/
def traceFile0 : TableFile := TableFile.new traceFileTd

/-- The file after one insert (page 0 allocated at address 10000 and
filled). -/
def traceFile1 : TableFile :=
  exceptFileState (TableFileManager.insert traceFile0 [traceNull] 10000 [])

/-- The file after a second insert (page 1 allocated at address 20000 and
filled). -/
def traceFile2 : TableFile :=
  exceptFileState (TableFileManager.insert traceFile1 [traceNull] 20000 [])

/-- The file after deleting the tuple of page 0 (pointer 10009 is page 0's
slot region: 10000 + 8 header bytes + 1 bitmap byte). -/
def traceFile3 : TableFile := (traceFile2.delete 10009).getD traceFile2

/-- Occupancy of the logical position pos = page_index * slot_sum +
slot_index: the bitmap bit of slot pos % slot_sum in page pos / slot_sum
(false when that page is not loaded). -/
def TableFile.occupied (f : TableFile) (pos : Nat) : Bool :=
  match f.lookup (pos / f.get_page_slot_sum) with
  | some page => page.bitmap.bit (pos % f.get_page_slot_sum)
  | none => false

/-- All pages of the file are loaded, with well-formed bitmaps whose slot
count is the table's page slot count. -/
def TableFile.pages_wf (f : TableFile) : Prop :=
  ∀ i < f.page_sum, (f.lookup i).isSome = true ∧
    (f.lookup i).all (fun page =>
      decide page.bitmap.wf && (page.bitmap.slot_sum == f.get_page_slot_sum)) = true

instance (f : TableFile) : Decidable f.pages_wf := by
  unfold TableFile.pages_wf; infer_instance

/-- Concrete integer literal that does not fit in an i32. -/
def traceBig : ValueExpr := { value := "2147483648", value_type := ValueType.Integer }

/-- The page state at the abort of inserting traceBig into tracePage0. -/
def tracePageErr : FilePage := exceptState (tracePage0.insert [traceBig] traceTd)

-- ===== THEOREMS =====

/-- C1 (counterexample): for tuple width 9 the code computes slot_sum = 447,
yet N = 448 also satisfies ceil(N/8) + 9*N <= page_size - 8, so
get_slot_sum 9 is not the largest N satisfying that inequality. -/
theorem get_slot_sum_not_maximal :
    get_slot_sum 9 = 447 ∧
    (448 + 7) / 8 + 9 * 448 ≤ get_page_size - 8 ∧
    get_slot_sum 9 < 448 := by
  decide

/-- C1 (amended): for every tuple width T >= 1, get_slot_sum T equals
floor((8*(P - 8) - 7) / (8*T + 1)) for the fixed page size P; this value
always satisfies ceil(N/8) + T*N <= P - 8 (header, bitmap and slots fit in
one page), and it is the largest N satisfying the stronger linear bound
(8*T + 1)*N <= 8*(P - 8) - 7.  It is not in general the largest N
satisfying the ceiling inequality (see the counterexample at T = 9). -/
theorem get_slot_sum_spec (T : Nat) (h : 1 ≤ T) :
    get_slot_sum T = (8 * (get_page_size - 8) - 7) / (8 * T + 1) ∧
    (get_slot_sum T + 7) / 8 + T * get_slot_sum T ≤ get_page_size - 8 ∧
    (∀ M, (8 * T + 1) * M ≤ 8 * (get_page_size - 8) - 7 → M ≤ get_slot_sum T) := by
  refine ⟨rfl, ?_, ?_⟩
  · have hP : get_page_size = 4096 := rfl
    have hA : get_slot_sum T * (8 * T + 1) ≤ 8 * (get_page_size - 8) - 7 :=
      Nat.div_mul_le_self _ _
    have h1 : 8 * (get_slot_sum T * T) + get_slot_sum T ≤ 8 * (get_page_size - 8) - 7 := by
      calc 8 * (get_slot_sum T * T) + get_slot_sum T
          = get_slot_sum T * (8 * T + 1) := by ring
        _ ≤ 8 * (get_page_size - 8) - 7 := hA
    have h2 : T * get_slot_sum T = get_slot_sum T * T := Nat.mul_comm T _
    rw [h2]
    generalize hX : get_slot_sum T * T = X at h1 ⊢
    omega
  · intro M hM
    have hpos : 0 < 8 * T + 1 := by omega
    exact (Nat.le_div_iff_mul_le hpos).mpr (by rw [Nat.mul_comm]; exact hM)

/-- C1 (witness for the amended theorem): instantiation at tuple width 4. -/
theorem get_slot_sum_spec_witness :
    1 ≤ 4 ∧
    (get_slot_sum 4 = (8 * (get_page_size - 8) - 7) / (8 * 4 + 1) ∧
     (get_slot_sum 4 + 7) / 8 + 4 * get_slot_sum 4 ≤ get_page_size - 8 ∧
     (∀ M, (8 * 4 + 1) * M ≤ 8 * (get_page_size - 8) - 7 → M ≤ get_slot_sum 4)) :=
  ⟨by decide, get_slot_sum_spec 4 (by decide)⟩

/-- Exhaustive check over one byte: the first zero bit found by the inner
loop of get_first_free_slot is a zero bit below position 8, and all bits
below it are set. -/
theorem find_zero_bit_spec : ∀ n < 256, n ≠ 255 →
    find_zero_bit n 0 8 < 8 ∧ Nat.testBit n (find_zero_bit n 0 8) = false ∧
    ∀ j < find_zero_bit n 0 8, Nat.testBit n j = true := by decide

/-- Exhaustive check over one byte: when the inner loop of next_tuple_index
is entered (2^b <= n), it finds a set bit at a position in b..7. -/
theorem find_set_bit_found : ∀ n < 256, ∀ b < 8, 2 ^ b ≤ n →
    b ≤ find_set_bit n b (8 - b) ∧ find_set_bit n b (8 - b) < 8 ∧
    Nat.testBit n (find_set_bit n b (8 - b)) = true := by decide

/-- Exhaustive check over one byte: the inner loop of next_tuple_index
skips no set bit. -/
theorem find_set_bit_least : ∀ n < 256, ∀ b < 8, ∀ j < 8,
    b ≤ j → j < find_set_bit n b (8 - b) → Nat.testBit n j = false := by decide

/-- Exhaustive check over one byte: a byte below 2^b has no set bit at
position b or above. -/
theorem byte_low_no_bits : ∀ n < 256, ∀ b < 8, n < 2 ^ b →
    ∀ j < 8, b ≤ j → Nat.testBit n j = false := by decide

/-- Every bit of the byte 255 is set. -/
theorem byte_255_all_bits : ∀ j < 8, Nat.testBit 255 j = true := by decide

/-- Exhaustive check over one byte: bits of a | (1 << b). -/
theorem byte_or_testBit : ∀ a < 256, ∀ b < 8, ∀ j < 8,
    Nat.testBit (a ||| 2 ^ b) j = (Nat.testBit a j || decide (j = b)) := by decide

/-- Exhaustive check over one byte: bits of a & (255 - (1 << b)). -/
theorem byte_and_testBit : ∀ a < 256, ∀ b < 8, ∀ j < 8,
    Nat.testBit (a &&& (255 - 2 ^ b)) j = (Nat.testBit a j && decide (j ≠ b)) := by decide

/-- Setting a bit keeps the byte a byte. -/
theorem byte_or_lt : ∀ a < 256, ∀ b < 8, a ||| 2 ^ b < 256 := by decide

/-- Clearing a bit keeps the byte a byte. -/
theorem byte_and_lt : ∀ a < 256, ∀ b < 8, a &&& (255 - 2 ^ b) < 256 := by decide

/-- A byte has no bits at position 8 or above. -/
theorem byte_no_high_bits (n : Nat) (hn : n < 256) (j : Nat) (hj : 8 ≤ j) :
    Nat.testBit n j = false :=
  Nat.testBit_eq_false_of_lt
    (lt_of_lt_of_le hn (Nat.pow_le_pow_right (by norm_num : 0 < 2) hj))

theorem getD_set_self (l : List Nat) (i b : Nat) (h : i < l.length) :
    (l.set i b).getD i 0 = b := by
  simp [List.getD_eq_getElem?_getD, List.getElem?_set_self', h]

theorem getD_set_ne (l : List Nat) (i j b : Nat) (h : j ≠ i) :
    (l.set i b).getD j 0 = l.getD j 0 := by
  simp [List.getD_eq_getElem?_getD, List.getElem?_set_ne (Ne.symm h)]

theorem getD_of_ge (l : List Nat) (j : Nat) (h : l.length ≤ j) : l.getD j 0 = 0 := by
  simp [List.getD_eq_getElem?_getD, List.getElem?_eq_none h]

theorem getD_lt_of_mem_lt (l : List Nat) (j : Nat) (h2 : ∀ b ∈ l, b < 256) :
    l.getD j 0 < 256 := by
  by_cases h : j < l.length
  · rw [List.getD_eq_getElem?_getD, List.getElem?_eq_getElem h]
    exact h2 _ (List.getElem_mem h)
  · rw [getD_of_ge l j (Nat.le_of_not_lt h)]; norm_num

/-- Bytes of a well-formed bitmap are u8 values. -/
theorem BitMap.byteAt_lt (bm : BitMap) (h : bm.wf) (i : Nat) : bm.byteAt i < 256 :=
  getD_lt_of_mem_lt _ _ h.2.1

/-- The slot count fits in the bitmap's bits. -/
theorem BitMap.slot_sum_le (bm : BitMap) : bm.slot_sum ≤ 8 * bm.get_byte_size := by
  unfold BitMap.get_byte_size; omega

/-- In a well-formed bitmap every bit at index slot_sum or above is 0,
inside or outside the byte array. -/
theorem BitMap.bit_false_of_ge (bm : BitMap) (h : bm.wf) (i : Nat)
    (hi : bm.slot_sum ≤ i) : bm.bit i = false := by
  by_cases hlt : i < 8 * bm.get_byte_size
  · exact h.2.2 i hlt hi
  · have hlen : bm.data.length ≤ i / 8 := by
      rw [h.1]
      have hB : 8 * bm.get_byte_size ≤ i := Nat.le_of_not_lt hlt
      omega
    unfold BitMap.bit
    rw [BitMap.byteAt, getD_of_ge _ _ hlen]
    simp

/-- Positions inside one byte: quotient and remainder of count * 8 + z. -/
theorem pos_div8 (c z : Nat) (hz : z < 8) :
    (c * 8 + z) / 8 = c ∧ (c * 8 + z) % 8 = z := by omega

theorem BitMap.set_inuse_slot_sum (bm : BitMap) (i : Nat) (v : Bool) :
    (bm.set_inuse i v).slot_sum = bm.slot_sum := rfl

theorem BitMap.set_inuse_length (bm : BitMap) (i : Nat) (v : Bool) :
    (bm.set_inuse i v).data.length = bm.data.length := by
  simp [BitMap.set_inuse]

/-- Effect of BitMap::set_inuse on each bit: the addressed bit becomes the
written value, every other bit is unchanged. -/
theorem BitMap.bit_set_inuse (bm : BitMap) (h : bm.wf) (i : Nat)
    (hi : i < 8 * bm.get_byte_size) (v : Bool) (j : Nat) :
    (bm.set_inuse i v).bit j = if j = i then v else bm.bit j := by
  have hlen : i / 8 < bm.data.length := by rw [h.1]; omega
  have ha : bm.byteAt (i / 8) < 256 := bm.byteAt_lt h _
  have hi8 : i % 8 < 8 := Nat.mod_lt _ (by norm_num)
  have hbyte : ∀ w : Nat,
      (bm.set_inuse i v).byteAt w =
        if w = i / 8 then
          (if v then bm.byteAt (i / 8) ||| 2 ^ (i % 8)
           else bm.byteAt (i / 8) &&& (255 - 2 ^ (i % 8)))
        else bm.byteAt w := by
    intro w
    by_cases hw : w = i / 8
    · subst hw
      simp only [if_pos rfl]
      cases v
      · exact getD_set_self _ _ _ hlen
      · exact getD_set_self _ _ _ hlen
    · simp only [if_neg hw]
      cases v
      · exact getD_set_ne _ _ _ _ hw
      · exact getD_set_ne _ _ _ _ hw
  by_cases hj : j = i
  · subst hj
    unfold BitMap.bit
    rw [hbyte, if_pos rfl]
    cases v
    · rw [if_neg (by simp : ¬(false = true)), byte_and_testBit _ ha _ hi8 _ hi8]
      simp
    · rw [if_pos rfl, byte_or_testBit _ ha _ hi8 _ hi8]
      simp
  · unfold BitMap.bit
    rw [hbyte]
    by_cases hw : j / 8 = i / 8
    · rw [if_pos hw]
      have hj8 : j % 8 < 8 := Nat.mod_lt _ (by norm_num)
      have hne : j % 8 ≠ i % 8 := by omega
      rw [hw, if_neg hj]
      cases v
      · rw [if_neg (by simp : ¬(false = true)), byte_and_testBit _ ha _ hi8 _ hj8]
        simp [hne]
      · rw [if_pos rfl, byte_or_testBit _ ha _ hi8 _ hj8]
        simp [hne]
    · rw [if_neg hw, if_neg hj]

/-- BitMap::set_inuse with an in-range index preserves well-formedness. -/
theorem BitMap.set_inuse_wf (bm : BitMap) (h : bm.wf) (i : Nat)
    (hi : i < bm.slot_sum) (v : Bool) : (bm.set_inuse i v).wf := by
  have hi8 : i % 8 < 8 := Nat.mod_lt _ (by norm_num)
  have ha : bm.byteAt (i / 8) < 256 := bm.byteAt_lt h _
  refine ⟨?_, ?_, ?_⟩
  · rw [BitMap.set_inuse_length]
    exact h.1
  · intro b hb
    simp only [BitMap.set_inuse] at hb
    rcases List.mem_or_eq_of_mem_set hb with hmem | hset
    · exact h.2.1 b hmem
    · subst hset
      cases v
      · simpa using byte_and_lt _ ha _ hi8
      · simpa using byte_or_lt _ ha _ hi8
  · intro j hjB hjs
    rw [show (bm.set_inuse i v).slot_sum = bm.slot_sum from rfl] at hjs
    rw [show (bm.set_inuse i v).get_byte_size = bm.get_byte_size from rfl] at hjB
    have hji : j ≠ i := by omega
    rw [BitMap.bit_set_inuse bm h i
        (lt_of_lt_of_le hi bm.slot_sum_le) v j, if_neg hji]
    exact h.2.2 j hjB hjs

/-- Correctness of the byte scan of get_first_free_slot: given that all
bits below count * 8 are set, the result is the least zero-bit index from
there on, capped at slot_sum. -/
theorem BitMap.ffs_go_spec (bm : BitMap) (h : bm.wf) :
    ∀ k count, count + k = bm.get_byte_size →
    (∀ j < count * 8, bm.bit j = true) →
    bm.ffs_go count k ≤ bm.slot_sum ∧
    (bm.ffs_go count k < bm.slot_sum → bm.bit (bm.ffs_go count k) = false) ∧
    (∀ j < bm.ffs_go count k, bm.bit j = true) := by
  intro k
  induction k with
  | zero =>
    intro count hc hinv
    simp only [BitMap.ffs_go]
    have hB : bm.slot_sum ≤ 8 * bm.get_byte_size := bm.slot_sum_le
    exact ⟨le_refl _, fun hlt => absurd hlt (lt_irrefl _), fun j hj => hinv j (by omega)⟩
  | succ k ih =>
    intro count hc hinv
    have hcount : count < bm.get_byte_size := by omega
    have hcount2 : count < (bm.slot_sum + 7) / 8 := hcount
    simp only [BitMap.ffs_go]
    rw [if_pos hcount2]
    by_cases hn : bm.byteAt count = 255
    · rw [if_pos hn]
      have hext : ∀ j < (count + 1) * 8, bm.bit j = true := by
        intro j hj
        by_cases hj0 : j < count * 8
        · exact hinv j hj0
        · have hr : j % 8 < 8 := Nat.mod_lt _ (by norm_num)
          have hdiv : j / 8 = count := by omega
          unfold BitMap.bit
          rw [hdiv, hn]
          exact byte_255_all_bits _ hr
      exact ih (count + 1) (by omega) hext
    · rw [if_neg hn]
      have hn256 : bm.byteAt count < 256 := bm.byteAt_lt h count
      obtain ⟨hz8, hzbit, hzlow⟩ := find_zero_bit_spec _ hn256 hn
      have h8 : count * 8 ≤ bm.slot_sum := by
        by_contra hlt
        push_neg at hlt
        have hfalse : bm.bit bm.slot_sum = false :=
          h.2.2 _ (by omega) (le_refl _)
        have htrue : bm.bit bm.slot_sum = true := hinv _ hlt
        rw [htrue] at hfalse
        exact Bool.noConfusion hfalse
      have hle : count * 8 + find_zero_bit (bm.byteAt count) 0 8 ≤ bm.slot_sum := by
        by_contra hgt
        push_neg at hgt
        have hj0 : bm.slot_sum - count * 8 < find_zero_bit (bm.byteAt count) 0 8 := by
          omega
        have hdiv : bm.slot_sum / 8 = count := by omega
        have hmod : bm.slot_sum % 8 = bm.slot_sum - count * 8 := by omega
        have htrue : Nat.testBit (bm.byteAt count) (bm.slot_sum - count * 8) = true :=
          hzlow _ hj0
        have hfalse : bm.bit bm.slot_sum = false :=
          h.2.2 _ (by omega) (le_refl _)
        unfold BitMap.bit at hfalse
        rw [hdiv, hmod, htrue] at hfalse
        exact Bool.noConfusion hfalse
      refine ⟨hle, ?_, ?_⟩
      · intro _
        unfold BitMap.bit
        have hd := pos_div8 count _ hz8
        rw [hd.1, hd.2]
        exact hzbit
      · intro j hj
        by_cases hj0 : j < count * 8
        · exact hinv j hj0
        · have hjr : j - count * 8 < find_zero_bit (bm.byteAt count) 0 8 := by omega
          have hd : j / 8 = count := by omega
          have hm : j % 8 = j - count * 8 := by omega
          unfold BitMap.bit
          rw [hd, hm]
          exact hzlow _ hjr

/-- Correctness of BitMap::get_first_free_slot on a well-formed bitmap: it
returns the least slot index whose bit is 0, or slot_sum when every slot
bit is 1. -/
theorem BitMap.get_first_free_slot_spec (bm : BitMap) (h : bm.wf) :
    bm.get_first_free_slot ≤ bm.slot_sum ∧
    (bm.get_first_free_slot < bm.slot_sum → bm.bit bm.get_first_free_slot = false) ∧
    (∀ j < bm.get_first_free_slot, bm.bit j = true) := by
  have hmain := bm.ffs_go_spec h bm.get_byte_size 0 (by omega)
    (fun j hj => absurd hj (by omega))
  exact hmain

/-- Correctness of the byte scan of next_tuple_index: given that all bits
in the scanned prefix starting at position start are 0, the result is the
least set-bit index at or after start, or slot_sum when there is none. -/
theorem BitMap.nti_go_spec (bm : BitMap) (h : bm.wf) :
    ∀ k count bit_count start, bit_count < 8 → count + k = bm.get_byte_size →
    start ≤ count * 8 + bit_count →
    (∀ j, start ≤ j → j < count * 8 + bit_count → bm.bit j = false) →
    (start ≤ bm.nti_go count bit_count k ∧ bm.nti_go count bit_count k < bm.slot_sum ∧
       bm.bit (bm.nti_go count bit_count k) = true ∧
       ∀ j, start ≤ j → j < bm.nti_go count bit_count k → bm.bit j = false) ∨
    (bm.nti_go count bit_count k = bm.slot_sum ∧
       ∀ j, start ≤ j → j < bm.slot_sum → bm.bit j = false) := by
  intro k
  induction k with
  | zero =>
    intro count bit_count start hb8 hc hs hinv
    have hB : bm.slot_sum ≤ 8 * bm.get_byte_size := bm.slot_sum_le
    exact Or.inr ⟨rfl, fun j hj1 hj2 => hinv j hj1 (by omega)⟩
  | succ k ih =>
    intro count bit_count start hb8 hc hs hinv
    have hcount : count < bm.get_byte_size := by omega
    have hcount2 : count < (bm.slot_sum + 7) / 8 := hcount
    simp only [BitMap.nti_go]
    rw [if_pos hcount2]
    have hn256 : bm.byteAt count < 256 := bm.byteAt_lt h count
    by_cases hn : bm.byteAt count < 2 ^ bit_count
    · rw [if_pos hn]
      have hext : ∀ j, start ≤ j → j < (count + 1) * 8 + 0 → bm.bit j = false := by
        intro j hj1 hj2
        by_cases hj0 : j < count * 8 + bit_count
        · exact hinv j hj1 hj0
        · have hr : j % 8 < 8 := Nat.mod_lt _ (by norm_num)
          have hrb : bit_count ≤ j % 8 := by omega
          have hdiv : j / 8 = count := by omega
          unfold BitMap.bit
          rw [hdiv]
          exact byte_low_no_bits _ hn256 _ hb8 hn _ hr hrb
      exact ih (count + 1) 0 start (by norm_num) (by omega) (by omega) hext
    · rw [if_neg hn]
      push_neg at hn
      obtain ⟨hfb, hf8, hfbit⟩ := find_set_bit_found _ hn256 _ hb8 hn
      have hbit : bm.bit (count * 8 + find_set_bit (bm.byteAt count) bit_count (8 - bit_count))
          = true := by
        have hd := pos_div8 count _ hf8
        unfold BitMap.bit
        rw [hd.1, hd.2]
        exact hfbit
      have hlt : count * 8 + find_set_bit (bm.byteAt count) bit_count (8 - bit_count)
          < bm.slot_sum := by
        by_contra hge
        push_neg at hge
        have hfalse := h.2.2 _ (by omega) hge
        rw [hbit] at hfalse
        exact Bool.noConfusion hfalse
      refine Or.inl ⟨by omega, hlt, hbit, ?_⟩
      intro j hj1 hj2
      by_cases hj0 : j < count * 8 + bit_count
      · exact hinv j hj1 hj0
      · have hr : j % 8 < 8 := Nat.mod_lt _ (by norm_num)
        have hrb : bit_count ≤ j % 8 := by omega
        have hrf : j % 8 < find_set_bit (bm.byteAt count) bit_count (8 - bit_count) := by
          omega
        have hdiv : j / 8 = count := by omega
        unfold BitMap.bit
        rw [hdiv]
        exact find_set_bit_least _ hn256 _ hb8 _ hr hrb hrf

/-- C3: for every well-formed bitmap (in particular, bits at indices at
least slot_sum within the trailing byte are zero) and every starting index,
BitMap::next_tuple_index returns the smallest slot index that is at least
start, below slot_sum, and whose bit is set, and returns slot_sum when no
such index exists (including when start is at least slot_sum). -/
theorem next_tuple_index_spec (bm : BitMap) (h : bm.wf) (start : Nat) :
    (start ≤ bm.next_tuple_index start ∧ bm.next_tuple_index start < bm.slot_sum ∧
       bm.bit (bm.next_tuple_index start) = true ∧
       ∀ j, start ≤ j → j < bm.next_tuple_index start → bm.bit j = false) ∨
    (bm.next_tuple_index start = bm.slot_sum ∧
       ∀ j, start ≤ j → j < bm.slot_sum → bm.bit j = false) := by
  unfold BitMap.next_tuple_index
  by_cases hge : bm.slot_sum ≤ start
  · rw [if_pos hge]
    exact Or.inr ⟨rfl, fun j hj1 hj2 => absurd hj1 (by omega)⟩
  · rw [if_neg hge]
    push_neg at hge
    have hB : bm.slot_sum ≤ 8 * bm.get_byte_size := bm.slot_sum_le
    have hsB : start / 8 < bm.get_byte_size := by omega
    have hmod : start % 8 < 8 := Nat.mod_lt _ (by norm_num)
    have hpos : start / 8 * 8 + start % 8 = start := by omega
    have hmain := bm.nti_go_spec h (bm.get_byte_size - start / 8) (start / 8) (start % 8)
      start hmod (by omega) (by omega) (fun j hj1 hj2 => absurd hj1 (by omega))
    exact hmain

/-- C3 (witness): the bitmap with bits 3 and 7 set among 10 slots; from
start 4 the returned index is the smallest occupied slot at or after 4. -/
theorem next_tuple_index_spec_witness :
    (BitMap.mk [136, 0] 10).wf ∧
    ((4 ≤ (BitMap.mk [136, 0] 10).next_tuple_index 4 ∧
        (BitMap.mk [136, 0] 10).next_tuple_index 4 < (BitMap.mk [136, 0] 10).slot_sum ∧
        (BitMap.mk [136, 0] 10).bit ((BitMap.mk [136, 0] 10).next_tuple_index 4) = true ∧
        ∀ j, 4 ≤ j → j < (BitMap.mk [136, 0] 10).next_tuple_index 4 →
          (BitMap.mk [136, 0] 10).bit j = false) ∨
      ((BitMap.mk [136, 0] 10).next_tuple_index 4 = (BitMap.mk [136, 0] 10).slot_sum ∧
        ∀ j, 4 ≤ j → j < (BitMap.mk [136, 0] 10).slot_sum →
          (BitMap.mk [136, 0] 10).bit j = false)) :=
  ⟨by decide, next_tuple_index_spec (BitMap.mk [136, 0] 10) (by decide) 4⟩

/-- The value-writing loop of FilePage::insert touches only the slot
region: header, bitmap, buffer address and tuple width are unchanged in
both the completed and the aborted state. -/
theorem FilePage.insert_values_frame :
    ∀ (vl : List ValueExpr) (ds : List AttrType) (off : Nat) (p : FilePage),
    (exceptState (p.insert_values off vl ds)).header = p.header ∧
    (exceptState (p.insert_values off vl ds)).bitmap = p.bitmap ∧
    (exceptState (p.insert_values off vl ds)).data_addr = p.data_addr ∧
    (exceptState (p.insert_values off vl ds)).tuple_len = p.tuple_len := by
  intro vl
  induction vl with
  | nil =>
    intro ds off p
    exact ⟨rfl, rfl, rfl, rfl⟩
  | cons v vs ih =>
    intro ds off p
    obtain ⟨val, vt⟩ := v
    cases ds with
    | nil => exact ⟨rfl, rfl, rfl, rfl⟩
    | cons d ds =>
      cases vt <;> cases d
      case Integer.Int =>
        simp only [FilePage.insert_values]
        cases hp : parse_i32 val
        · exact ⟨rfl, rfl, rfl, rfl⟩
        · exact ih ds (off + 4) _
      case Integer.Float =>
        exact ih ds (off + 4) _
      case Integer.Char len =>
        exact ⟨rfl, rfl, rfl, rfl⟩
      case Float.Int =>
        exact ⟨rfl, rfl, rfl, rfl⟩
      case Float.Float =>
        exact ih ds (off + 4) _
      case Float.Char len =>
        exact ⟨rfl, rfl, rfl, rfl⟩
      case String.Int =>
        exact ⟨rfl, rfl, rfl, rfl⟩
      case String.Float =>
        exact ⟨rfl, rfl, rfl, rfl⟩
      case String.Char len =>
        exact ih ds (off + (len + 3) / 4 * 4) _
      case Null.Int =>
        exact ih ds (off + 4) _
      case Null.Float =>
        exact ih ds (off + 4) _
      case Null.Char len =>
        exact ih ds (off + (len + 3) / 4 * 4) _

/-- A freshly cleaned bitmap is well-formed and entirely free. -/
theorem BitMap.clean_wf (bm : BitMap) :
    bm.clean.wf ∧ ∀ i, bm.clean.bit i = false := by
  have hb : ∀ i, bm.clean.byteAt i = 0 := by
    intro i
    unfold BitMap.clean BitMap.byteAt
    by_cases hi : i < bm.get_byte_size
    · simp [List.getD_eq_getElem?_getD, List.getElem?_replicate, hi]
    · refine getD_of_ge _ _ ?_
      simpa using Nat.le_of_not_lt hi
  have hbit : ∀ i, bm.clean.bit i = false := by
    intro i
    unfold BitMap.bit
    rw [hb]
    simp
  refine ⟨⟨?_, ?_, ?_⟩, hbit⟩
  · simp [BitMap.clean, BitMap.get_byte_size]
  · intro b hbmem
    simp only [BitMap.clean] at hbmem
    rcases List.eq_of_mem_replicate hbmem with rfl
    norm_num
  · intro i _ _
    exact hbit i

/-- When FilePage::insert returns without aborting, its three entry
assertions held and the result is the value loop applied to the marked
page. -/
theorem FilePage.insert_ok_inv (q r : FilePage) (vl : List ValueExpr) (td : TupleDesc)
    (hq : q.insert vl td = Except.ok r) :
    q.header.first_free_slot < q.bitmap.slot_sum ∧
    q.bitmap.bit q.header.first_free_slot = false ∧
    vl.length = td.attr_desc.length ∧
    q.insert_mark.insert_values (td.tuple_len * q.header.first_free_slot) vl td.attr_desc
      = Except.ok r := by
  unfold FilePage.insert at hq
  by_cases h1 : q.bitmap.slot_sum ≤ q.header.first_free_slot
  · rw [if_pos h1] at hq
    exact absurd hq (by simp)
  · rw [if_neg h1] at hq
    by_cases h2 : q.is_inuse q.header.first_free_slot
    · rw [if_pos h2] at hq
      exact absurd hq (by simp)
    · rw [if_neg h2] at hq
      by_cases h3 : vl.length ≠ td.attr_desc.length
      · rw [if_pos h3] at hq
        exact absurd hq (by simp)
      · rw [if_neg h3] at hq
        push_neg at h1 h3
        have h2' : q.bitmap.bit q.header.first_free_slot = false := by
          simpa [FilePage.is_inuse, BitMap.is_inuse] using h2
        exact ⟨h1, h2', h3, hq⟩

/-- When FilePage::delete returns without aborting, the pointer was at or
above the slot region, the computed slot index was an occupied slot, and
the result differs only in that slot's bit. -/
theorem FilePage.delete_some (p : FilePage) (ptr : Nat) (q : FilePage)
    (hq : p.delete ptr = some q) :
    p.tuple_data ≤ ptr ∧
    (ptr - p.tuple_data) / p.tuple_len < p.bitmap.slot_sum ∧
    p.bitmap.bit ((ptr - p.tuple_data) / p.tuple_len) = true ∧
    q = p.set_inuse ((ptr - p.tuple_data) / p.tuple_len) false := by
  simp only [FilePage.delete] at hq
  split at hq
  · exact absurd hq (by simp)
  · rename_i h1
    split at hq
    · rename_i h2
      refine ⟨by omega, h2.1, h2.2, ?_⟩
      injection hq with hq
      exact hq.symm
    · exact absurd hq (by simp)

/-- State equations of a completed FilePage::insert: the bitmap gained the
bit of the old first_free_slot, the header holds the rescan result, and the
result bitmap is again well-formed. -/
theorem FilePage.insert_ok_state (q r : FilePage) (vl : List ValueExpr) (td : TupleDesc)
    (hwf : q.bitmap.wf) (hq : q.insert vl td = Except.ok r) :
    r.bitmap = q.bitmap.set_inuse q.header.first_free_slot true ∧
    r.header.first_free_slot
      = (q.bitmap.set_inuse q.header.first_free_slot true).get_first_free_slot ∧
    r.bitmap.wf ∧
    q.header.first_free_slot < q.bitmap.slot_sum ∧
    q.bitmap.bit q.header.first_free_slot = false := by
  obtain ⟨h1, h2, h3, h4⟩ := FilePage.insert_ok_inv q r vl td hq
  have hf := FilePage.insert_values_frame vl td.attr_desc
    (td.tuple_len * q.header.first_free_slot) q.insert_mark
  rw [h4] at hf
  simp only [exceptState] at hf
  have hbm : r.bitmap = q.bitmap.set_inuse q.header.first_free_slot true := hf.2.1
  have hffs : r.header.first_free_slot
      = (q.bitmap.set_inuse q.header.first_free_slot true).get_first_free_slot := by
    rw [hf.1]
    rfl
  refine ⟨hbm, hffs, ?_, h1, h2⟩
  rw [hbm]
  exact q.bitmap.set_inuse_wf hwf _ h1 true

/-- State equations of a completed FilePage::delete: header and tuple
bytes are untouched, only the addressed occupied slot's bit is cleared. -/
theorem FilePage.delete_state (p : FilePage) (ptr : Nat) (q : FilePage)
    (hwf : p.bitmap.wf) (hq : p.delete ptr = some q) :
    q.header = p.header ∧ q.slot_bytes = p.slot_bytes ∧ q.bitmap.wf ∧
    q.bitmap.slot_sum = p.bitmap.slot_sum ∧
    (∀ j, q.bitmap.bit j =
      if j = (ptr - p.tuple_data) / p.tuple_len then false else p.bitmap.bit j) := by
  obtain ⟨hp1, hp2, hp3, hp4⟩ := FilePage.delete_some p ptr q hq
  subst hp4
  refine ⟨rfl, rfl, p.bitmap.set_inuse_wf hwf _ hp2 false, rfl, ?_⟩
  intro j
  exact p.bitmap.bit_set_inuse hwf _ (lt_of_lt_of_le hp2 p.bitmap.slot_sum_le) false j

/-- Invariant carried along any insert/delete trace of one page: the
bitmap stays well-formed, and first_free_slot stays at most slot_sum and,
when below it, names a free slot. -/
theorem pageReach_inv (p q : FilePage) (hreach : PageReach p q)
    (hp : p.bitmap.wf ∧ p.header.first_free_slot ≤ p.bitmap.slot_sum ∧
      (p.header.first_free_slot < p.bitmap.slot_sum →
        p.bitmap.bit p.header.first_free_slot = false)) :
    q.bitmap.wf ∧ q.header.first_free_slot ≤ q.bitmap.slot_sum ∧
    (q.header.first_free_slot < q.bitmap.slot_sum →
      q.bitmap.bit q.header.first_free_slot = false) := by
  induction hreach with
  | refl => exact hp
  | insert b r vl td hr hstep ih =>
    obtain ⟨hwf, _, _⟩ := ih
    obtain ⟨hbm, hffs, hwf', h1, h2⟩ := FilePage.insert_ok_state b r vl td hwf hstep
    have hspec := BitMap.get_first_free_slot_spec
      (b.bitmap.set_inuse b.header.first_free_slot true) (by rw [← hbm]; exact hwf')
    have hsl : r.bitmap.slot_sum
        = (b.bitmap.set_inuse b.header.first_free_slot true).slot_sum := by rw [hbm]
    refine ⟨hwf', ?_, ?_⟩
    · rw [hffs, hsl]
      exact hspec.1
    · intro hlt
      rw [hffs, hsl] at hlt
      rw [hbm, hffs]
      exact hspec.2.1 hlt
  | delete b r ptr hr hstep ih =>
    obtain ⟨hwf, hle, hfree⟩ := ih
    obtain ⟨hhd, _, hwf', hsl, hbits⟩ := FilePage.delete_state b ptr r hwf hstep
    have hffs : r.header.first_free_slot = b.header.first_free_slot := by rw [hhd]
    refine ⟨hwf', ?_, ?_⟩
    · rw [hffs, hsl]
      exact hle
    · intro hlt
      rw [hffs, hsl] at hlt
      rw [hffs, hbits]
      by_cases hcase : b.header.first_free_slot = (ptr - b.tuple_data) / b.tuple_len
      · rw [if_pos hcase]
      · rw [if_neg hcase]
        exact hfree hlt

/-- C2 (counterexample): insert then delete from a fresh page reaches a
page (tracePage2) whose slot 0 is free while first_free_slot = 1, so
first_free_slot is not the smallest free slot index; the next insert
(tracePage3) then occupies slot 1, not the freed slot 0, so delete
followed by insert does not reuse the deleted slot. -/
theorem page_first_free_slot_not_least :
    PageReach tracePage0 tracePage2 ∧
    tracePage2.bitmap.bit 0 = false ∧
    0 < tracePage2.bitmap.slot_sum ∧
    tracePage2.header.first_free_slot = 1 ∧
    tracePage2.insert [traceValue] traceTd = Except.ok tracePage3 ∧
    tracePage3.bitmap.bit 0 = false ∧
    tracePage3.bitmap.bit 1 = true := by
  refine ⟨?_, by decide, by decide, by decide, by rfl, by decide, by decide⟩
  refine PageReach.delete tracePage0 tracePage1 tracePage2 tracePage1.tuple_data
    (PageReach.insert tracePage0 tracePage0 tracePage1 [traceValue] traceTd
      (PageReach.refl tracePage0) (by rfl)) (by rfl)

/-- C2 (amended): for every page reachable from a freshly initialized
empty page by inserts and deletes, first_free_slot is at most slot_sum
and, when below it, names a free slot; at initialization and immediately
after every insert it equals the smallest slot index with bitmap bit 0 (or
slot_sum if all bits are 1); but FilePage::delete leaves first_free_slot
unchanged, so after a delete it can exceed the smallest free index, and a
delete followed by an insert places the new tuple at the pre-delete
first_free_slot rather than reusing the lowest-index free slot (see the
counterexample). -/
theorem page_first_free_slot_invariant (addr t : Nat) (bb sb : List Nat) (q : FilePage)
    (hreach : PageReach ((FilePage.new addr t bb sb).init_empty_page) q) :
    (q.bitmap.wf ∧ q.header.first_free_slot ≤ q.bitmap.slot_sum ∧
      (q.header.first_free_slot < q.bitmap.slot_sum →
        q.bitmap.bit q.header.first_free_slot = false)) ∧
    ((FilePage.new addr t bb sb).init_empty_page.header.first_free_slot = 0 ∧
      ∀ i, (FilePage.new addr t bb sb).init_empty_page.bitmap.bit i = false) ∧
    (∀ vl td r, q.insert vl td = Except.ok r →
      r.header.first_free_slot ≤ r.bitmap.slot_sum ∧
      (r.header.first_free_slot < r.bitmap.slot_sum →
        r.bitmap.bit r.header.first_free_slot = false) ∧
      (∀ j < r.header.first_free_slot, r.bitmap.bit j = true)) ∧
    (∀ ptr r, q.delete ptr = some r →
      r.header.first_free_slot = q.header.first_free_slot) := by
  have hclean := ((FilePage.new addr t bb sb).bitmap).clean_wf
  have hstart : ((FilePage.new addr t bb sb).init_empty_page).bitmap.wf ∧
      ((FilePage.new addr t bb sb).init_empty_page).header.first_free_slot ≤
        ((FilePage.new addr t bb sb).init_empty_page).bitmap.slot_sum ∧
      (((FilePage.new addr t bb sb).init_empty_page).header.first_free_slot <
          ((FilePage.new addr t bb sb).init_empty_page).bitmap.slot_sum →
        ((FilePage.new addr t bb sb).init_empty_page).bitmap.bit
          ((FilePage.new addr t bb sb).init_empty_page).header.first_free_slot = false) :=
    ⟨hclean.1, Nat.zero_le _, fun _ => hclean.2 0⟩
  have hq := pageReach_inv _ _ hreach hstart
  refine ⟨hq, ⟨rfl, fun i => hclean.2 i⟩, ?_, ?_⟩
  · intro vl td r hstep
    obtain ⟨hbm, hffs, hwf', h1, h2⟩ := FilePage.insert_ok_state q r vl td hq.1 hstep
    have hspec := BitMap.get_first_free_slot_spec
      (q.bitmap.set_inuse q.header.first_free_slot true) (by rw [← hbm]; exact hwf')
    have hsl : r.bitmap.slot_sum
        = (q.bitmap.set_inuse q.header.first_free_slot true).slot_sum := by rw [hbm]
    refine ⟨?_, ?_, ?_⟩
    · rw [hffs, hsl]
      exact hspec.1
    · intro hlt
      rw [hffs, hsl] at hlt
      rw [hbm, hffs]
      exact hspec.2.1 hlt
    · intro j hj
      rw [hffs] at hj
      rw [hbm]
      exact hspec.2.2 j hj
  · intro ptr r hstep
    obtain ⟨hhd, _, _, _, _⟩ := FilePage.delete_state q ptr r hq.1 hstep
    rw [hhd]

/-- C2 (witness for the amended theorem): the page obtained by one insert
into the fresh page tracePage0 satisfies the invariant and the insert and
delete clauses. -/
theorem page_first_free_slot_invariant_witness :
    PageReach ((FilePage.new 0 4 [] []).init_empty_page) tracePage1 ∧
    ((tracePage1.bitmap.wf ∧ tracePage1.header.first_free_slot ≤ tracePage1.bitmap.slot_sum ∧
      (tracePage1.header.first_free_slot < tracePage1.bitmap.slot_sum →
        tracePage1.bitmap.bit tracePage1.header.first_free_slot = false)) ∧
    ((FilePage.new 0 4 [] []).init_empty_page.header.first_free_slot = 0 ∧
      ∀ i, (FilePage.new 0 4 [] []).init_empty_page.bitmap.bit i = false) ∧
    (∀ vl td r, tracePage1.insert vl td = Except.ok r →
      r.header.first_free_slot ≤ r.bitmap.slot_sum ∧
      (r.header.first_free_slot < r.bitmap.slot_sum →
        r.bitmap.bit r.header.first_free_slot = false) ∧
      (∀ j < r.header.first_free_slot, r.bitmap.bit j = true)) ∧
    (∀ ptr r, tracePage1.delete ptr = some r →
      r.header.first_free_slot = tracePage1.header.first_free_slot)) :=
  ⟨PageReach.insert _ _ _ [traceValue] traceTd (PageReach.refl _) (by rfl),
   page_first_free_slot_invariant 0 4 [] [] tracePage1
     (PageReach.insert _ _ _ [traceValue] traceTd (PageReach.refl _) (by rfl))⟩

/-- Lookup after appending a fresh entry: visible only when the key was
absent. -/
theorem pages_lookup_append (i : Nat) (e : Nat × FilePage) :
    ∀ l : List (Nat × FilePage),
    pages_lookup i (l ++ [e]) =
      match pages_lookup i l with
      | some q => some q
      | none => if e.1 = i then some e.2 else none := by
  intro l
  induction l with
  | nil => rfl
  | cons a rest ih =>
    obtain ⟨j, p⟩ := a
    by_cases hj : j = i
    · simp [pages_lookup, hj]
    · simp only [List.cons_append, pages_lookup, if_neg hj]
      exact ih

/-- Lookup after a store to an existing key. -/
theorem pages_store_lookup_self (j : Nat) (p : FilePage) :
    ∀ l q, pages_lookup j l = some q →
    pages_lookup j (pages_store j p l) = some p := by
  intro l
  induction l with
  | nil => intro q hq; exact absurd hq (by simp [pages_lookup])
  | cons a rest ih =>
    intro q hq
    obtain ⟨k, r⟩ := a
    by_cases hk : k = j
    · simp [pages_store, pages_lookup, hk]
    · simp only [pages_lookup, if_neg hk] at hq
      simp only [pages_store, if_neg hk, pages_lookup]
      exact ih q hq

/-- Lookup of a different key is unchanged by a store. -/
theorem pages_store_lookup_ne (i j : Nat) (p : FilePage) (hij : i ≠ j) :
    ∀ l, pages_lookup i (pages_store j p l) = pages_lookup i l := by
  intro l
  induction l with
  | nil => rfl
  | cons a rest ih =>
    obtain ⟨k, r⟩ := a
    by_cases hk : k = j
    · subst hk
      simp [pages_store, pages_lookup, if_neg (by omega : ¬k = i)]
    · simp only [pages_store, if_neg hk, pages_lookup]
      by_cases hki : k = i
      · simp [hki]
      · rw [if_neg hki, if_neg hki]
        exact ih

/-- A store keeps the key multiset of the map. -/
theorem pages_store_keys (j : Nat) (p : FilePage) :
    ∀ l : List (Nat × FilePage),
    (pages_store j p l).map Prod.fst = l.map Prod.fst := by
  intro l
  induction l with
  | nil => rfl
  | cons a rest ih =>
    obtain ⟨k, r⟩ := a
    by_cases hk : k = j
    · simp [pages_store, hk]
    · simp only [pages_store, if_neg hk, List.map_cons]
      rw [ih]

/-- The delete search keeps the key list of the map. -/
theorem pages_delete_keys (ptr : Nat) :
    ∀ l l', pages_delete ptr l = some l' → l'.map Prod.fst = l.map Prod.fst := by
  intro l
  induction l with
  | nil =>
    intro l' hl
    simp only [pages_delete] at hl
    injection hl with hl
    rw [← hl]
  | cons a rest ih =>
    intro l' hl
    obtain ⟨k, page⟩ := a
    simp only [pages_delete] at hl
    split at hl
    · cases hdel : page.delete ptr with
      | none => rw [hdel] at hl; exact absurd hl (by simp)
      | some q =>
        rw [hdel] at hl
        simp only [Option.map_some'] at hl
        injection hl with hl
        rw [← hl]
        simp
    · cases hrest : pages_delete ptr rest with
      | none => rw [hrest] at hl; exact absurd hl (by simp)
      | some r =>
        rw [hrest] at hl
        simp only [Option.map_some'] at hl
        injection hl with hl
        rw [← hl]
        simp only [List.map_cons]
        rw [ih r hrest]

/-- After a successful delete search every key's page is either unchanged
or is the page-level delete result of the original page. -/
theorem pages_delete_lookup (ptr : Nat) :
    ∀ l l', pages_delete ptr l = some l' →
    ∀ i, pages_lookup i l' = pages_lookup i l ∨
      (∃ p p', pages_lookup i l = some p ∧ pages_lookup i l' = some p' ∧
        p.delete ptr = some p') := by
  intro l
  induction l with
  | nil =>
    intro l' hl i
    simp only [pages_delete] at hl
    injection hl with hl
    rw [← hl]
    exact Or.inl rfl
  | cons a rest ih =>
    intro l' hl i
    obtain ⟨k, page⟩ := a
    simp only [pages_delete] at hl
    split at hl
    · cases hdel : page.delete ptr with
      | none => rw [hdel] at hl; exact absurd hl (by simp)
      | some q =>
        rw [hdel] at hl
        simp only [Option.map_some'] at hl
        injection hl with hl
        rw [← hl]
        by_cases hk : k = i
        · refine Or.inr ⟨page, q, ?_, ?_, hdel⟩
          · simp [pages_lookup, hk]
          · simp [pages_lookup, hk]
        · simp only [pages_lookup, if_neg hk]
          exact Or.inl trivial
    · cases hrest : pages_delete ptr rest with
      | none => rw [hrest] at hl; exact absurd hl (by simp)
      | some r =>
        rw [hrest] at hl
        simp only [Option.map_some'] at hl
        injection hl with hl
        rw [← hl]
        by_cases hk : k = i
        · simp only [pages_lookup, if_pos hk]
          exact Or.inl trivial
        · simp only [pages_lookup, if_neg hk]
          exact ih r hrest i

/-- The delete search falls through silently when no loaded page's buffer
contains the pointer. -/
theorem pages_delete_noop (ptr : Nat) :
    ∀ l : List (Nat × FilePage),
    (∀ e ∈ l, e.2.is_in_page ptr = false) → pages_delete ptr l = some l := by
  intro l
  induction l with
  | nil => intro _; rfl
  | cons a rest ih =>
    intro h
    obtain ⟨k, page⟩ := a
    have hk : page.is_in_page ptr = false := h (k, page) (List.mem_cons_self _ _)
    simp only [pages_delete, hk]
    rw [ih (fun e he => h e (List.mem_cons_of_mem _ he))]
    simp

/-- Correctness of the need_new_page loop: the cursor only moves forward,
stops at page_sum, passes only pages that report full, and stops early
only at a page that does not report full (or is not loaded). -/
theorem TableFile.nnp_go_spec (f : TableFile) :
    ∀ k ffp, ffp + k = f.page_sum →
    ffp ≤ f.nnp_go ffp k ∧ f.nnp_go ffp k ≤ f.page_sum ∧
    (∀ i, ffp ≤ i → i < f.nnp_go ffp k →
      ∃ p, f.lookup i = some p ∧ p.is_full = true) ∧
    (f.nnp_go ffp k < f.page_sum →
      ∀ p, f.lookup (f.nnp_go ffp k) = some p → p.is_full = false) := by
  intro k
  induction k with
  | zero =>
    intro ffp hk
    simp only [TableFile.nnp_go]
    exact ⟨le_refl _, by omega, fun i h1 h2 => absurd h2 (by omega),
      fun hlt => absurd hlt (by omega)⟩
  | succ k ih =>
    intro ffp hk
    have hffp : ffp < f.page_sum := by omega
    cases hlook : f.lookup ffp with
    | none =>
      have hstep : f.nnp_go ffp (k + 1) = ffp := by
        simp [TableFile.nnp_go, hffp, hlook]
      rw [hstep]
      refine ⟨le_refl _, by omega, fun i h1 h2 => absurd h2 (by omega), ?_⟩
      intro _ p hp
      rw [hlook] at hp
      exact absurd hp (by simp)
    | some page =>
      by_cases hfull : page.is_full
      · have hstep : f.nnp_go ffp (k + 1) = f.nnp_go (ffp + 1) k := by
          simp [TableFile.nnp_go, hffp, hlook, hfull]
        rw [hstep]
        obtain ⟨ih1, ih2, ih3, ih4⟩ := ih (ffp + 1) (by omega)
        refine ⟨by omega, ih2, ?_, ih4⟩
        intro i h1 h2
        by_cases hi : i = ffp
        · subst hi
          exact ⟨page, hlook, hfull⟩
        · exact ih3 i (by omega) h2
      · have hstep : f.nnp_go ffp (k + 1) = ffp := by
          simp [TableFile.nnp_go, hffp, hlook, hfull]
        rw [hstep]
        refine ⟨le_refl _, by omega, fun i h1 h2 => absurd h2 (by omega), ?_⟩
        intro _ p hp
        rw [hlook] at hp
        injection hp with hp
        rw [← hp]
        simpa using hfull

/-- Decomposition of a completed TableFile::insert: the entry assertions
held, the page at first_free_page completed its page-level insert, and the
file changed only by storing that page back. -/
theorem TableFile.insert_ok_cases (f f2 : TableFile) (vl : List ValueExpr)
    (hok : f.insert vl = Except.ok f2) :
    f.first_free_page < f.page_sum ∧
    ∃ page p2, f.lookup f.first_free_page = some page ∧ page.is_full = false ∧
      page.insert vl f.tuple_desc = Except.ok p2 ∧
      f2 = { f with loaded_pages := pages_store f.first_free_page p2 f.loaded_pages } := by
  unfold TableFile.insert at hok
  split at hok
  · exact absurd hok (by simp)
  · rename_i h1
    split at hok
    · exact absurd hok (by simp)
    · rename_i page hlook
      split at hok
      · exact absurd hok (by simp)
      · rename_i hfull
        split at hok
        · rename_i p2 hins
          injection hok with hok
          exact ⟨by omega, page, p2, hlook, by simpa using hfull, hins, hok.symm⟩
        · exact absurd hok (by simp)

/-- Keys below a bound mean lookup misses every index at or above it. -/
theorem pages_lookup_ge_none :
    ∀ (l : List (Nat × FilePage)) (n i : Nat),
    (∀ e ∈ l, e.1 < n) → n ≤ i → pages_lookup i l = none := by
  intro l
  induction l with
  | nil => intro n i _ _; rfl
  | cons a rest ih =>
    intro n i h hni
    obtain ⟨k, p⟩ := a
    have hk : k < n := h (k, p) (List.mem_cons_self _ _)
    simp only [pages_lookup, if_neg (by omega : ¬k = i)]
    exact ih n i (fun e he => h e (List.mem_cons_of_mem _ he)) hni

/-- TableFile::need_new_page preserves the file invariant, changes nothing
but first_free_page, and its boolean result says the advanced cursor hit
page_sum. -/
theorem TableFile.need_new_page_inv (f : TableFile) (hinv : f.inv) :
    (f.need_new_page).1.inv ∧
    (f.need_new_page).1.loaded_pages = f.loaded_pages ∧
    (f.need_new_page).1.page_sum = f.page_sum ∧
    f.first_free_page ≤ (f.need_new_page).1.first_free_page ∧
    ((f.need_new_page).2 = true ↔ (f.need_new_page).1.first_free_page = f.page_sum) := by
  obtain ⟨h1, h2, h3, h4⟩ := hinv
  obtain ⟨s1, s2, s3, s4⟩ :=
    f.nnp_go_spec (f.page_sum - f.first_free_page) f.first_free_page (by omega)
  refine ⟨⟨s2, ?_, h3, ?_⟩, rfl, rfl, s1, ?_⟩
  · intro i hi
    exact h2 i hi
  · intro i hi
    have hlk : (f.need_new_page).1.lookup i = f.lookup i := rfl
    rw [hlk]
    by_cases hlow : i < f.first_free_page
    · exact h4 i hlow
    · obtain ⟨p, hp, hpfull⟩ := s3 i (by omega) hi
      rw [hp]
      simpa using hpfull
  · simp only [TableFile.need_new_page]
    exact ⟨fun h => by simpa using h, fun h => by simpa using h⟩

/-- TableFile::add_page, called when the cursor sits at page_sum,
preserves the invariant; the new page is visible at index page_sum and
every other index is unchanged. -/
theorem TableFile.add_page_inv (f : TableFile) (addr : Nat) (sb : List Nat)
    (hinv : f.inv) (hfull : f.first_free_page = f.page_sum) :
    (f.add_page addr sb).inv ∧
    (f.add_page addr sb).page_sum = f.page_sum + 1 ∧
    (f.add_page addr sb).first_free_page = f.first_free_page ∧
    (∀ i, i ≠ f.page_sum → (f.add_page addr sb).lookup i = f.lookup i) := by
  obtain ⟨h1, h2, h3, h4⟩ := hinv
  have hnone : f.lookup f.page_sum = none :=
    pages_lookup_ge_none f.loaded_pages f.page_sum f.page_sum h3 (le_refl _)
  have hlk : ∀ i, (f.add_page addr sb).lookup i =
      match f.lookup i with
      | some q => some q
      | none => if f.page_sum = i then
          some ((FilePage.new addr f.tuple_desc.tuple_len [] sb).init_empty_page)
        else none := by
    intro i
    exact pages_lookup_append i _ f.loaded_pages
  have hne : ∀ i, i ≠ f.page_sum → (f.add_page addr sb).lookup i = f.lookup i := by
    intro i hi
    rw [hlk i]
    cases hl : f.lookup i with
    | some q => rfl
    | none => simp [if_neg (by omega : ¬f.page_sum = i)]
  refine ⟨⟨by simp [TableFile.add_page]; omega, ?_, ?_, ?_⟩, rfl, rfl, hne⟩
  · intro i hi
    simp only [TableFile.add_page] at hi
    by_cases hip : i = f.page_sum
    · rw [hip, hlk f.page_sum, hnone]
      simp
    · rw [hne i hip]
      have : i < f.page_sum := by omega
      exact h2 i this
  · intro e he
    simp only [TableFile.add_page] at he
    rcases List.mem_append.mp he with hmem | hmem
    · have := h3 e hmem
      simp only [TableFile.add_page]
      omega
    · simp only [List.mem_singleton] at hmem
      subst hmem
      simp [TableFile.add_page]
  · intro i hi
    simp only [TableFile.add_page] at hi
    rw [hne i (by omega)]
    exact h4 i hi

/-- TableFile::insert preserves the invariant and changes neither
page_sum nor first_free_page. -/
theorem TableFile.insert_inv (f f2 : TableFile) (vl : List ValueExpr)
    (hinv : f.inv) (hok : f.insert vl = Except.ok f2) :
    f2.inv ∧ f2.page_sum = f.page_sum ∧ f2.first_free_page = f.first_free_page := by
  obtain ⟨hlt, page, p2, hlook, hfull, hins, hf2⟩ := TableFile.insert_ok_cases f f2 vl hok
  obtain ⟨h1, h2, h3, h4⟩ := hinv
  subst hf2
  refine ⟨⟨h1, ?_, ?_, ?_⟩, rfl, rfl⟩
  · intro i hi
    by_cases hip : i = f.first_free_page
    · subst hip
      have : pages_lookup f.first_free_page
          (pages_store f.first_free_page p2 f.loaded_pages) = some p2 :=
        pages_store_lookup_self _ _ _ _ hlook
      simp only [TableFile.lookup] at this ⊢
      rw [this]
      rfl
    · have : pages_lookup i (pages_store f.first_free_page p2 f.loaded_pages)
          = pages_lookup i f.loaded_pages :=
        pages_store_lookup_ne i _ _ hip f.loaded_pages
      simp only [TableFile.lookup] at this ⊢
      rw [this]
      exact h2 i hi
  · intro e he
    simp only at he
    have hkeys := pages_store_keys f.first_free_page p2 f.loaded_pages
    have : e.1 ∈ (pages_store f.first_free_page p2 f.loaded_pages).map Prod.fst :=
      List.mem_map_of_mem Prod.fst he
    rw [hkeys] at this
    obtain ⟨e2, he2, heq⟩ := List.mem_map.mp this
    rw [← heq]
    exact h3 e2 he2
  · intro i hi
    have hi2 : i < f.first_free_page := hi
    have hip : i ≠ f.first_free_page := by omega
    have : pages_lookup i (pages_store f.first_free_page p2 f.loaded_pages)
        = pages_lookup i f.loaded_pages :=
      pages_store_lookup_ne i _ _ hip f.loaded_pages
    simp only [TableFile.lookup] at this ⊢
    rw [this]
    exact h4 i hi

/-- TableFile::delete preserves the invariant and changes neither
page_sum nor first_free_page. -/
theorem TableFile.delete_inv (f f2 : TableFile) (ptr : Nat)
    (hinv : f.inv) (hdel : f.delete ptr = some f2) :
    f2.inv ∧ f2.page_sum = f.page_sum ∧ f2.first_free_page = f.first_free_page := by
  obtain ⟨h1, h2, h3, h4⟩ := hinv
  unfold TableFile.delete at hdel
  cases hpd : pages_delete ptr f.loaded_pages with
  | none => rw [hpd] at hdel; exact absurd hdel (by simp)
  | some l' =>
    rw [hpd] at hdel
    simp only [Option.map_some'] at hdel
    injection hdel with hdel
    rw [← hdel]
    have hrel := pages_delete_lookup ptr f.loaded_pages l' hpd
    have hkeys := pages_delete_keys ptr f.loaded_pages l' hpd
    refine ⟨⟨h1, ?_, ?_, ?_⟩, rfl, rfl⟩
    · intro i hi
      rcases hrel i with heq | ⟨p, p', hp, hp', _⟩
      · show (pages_lookup i l').isSome = true
        rw [heq]
        exact h2 i hi
      · show (pages_lookup i l').isSome = true
        rw [hp']
        rfl
    · intro e he
      have : e.1 ∈ l'.map Prod.fst := List.mem_map_of_mem Prod.fst he
      rw [hkeys] at this
      obtain ⟨e2, he2, heq⟩ := List.mem_map.mp this
      rw [← heq]
      exact h3 e2 he2
    · intro i hi
      rcases hrel i with heq | ⟨p, p', hp, hp', hpdel⟩
      · show (pages_lookup i l').all FilePage.is_full = true
        rw [heq]
        exact h4 i hi
      · show (pages_lookup i l').all FilePage.is_full = true
        rw [hp']
        have hold := h4 i hi
        show p'.is_full = true
        obtain ⟨_, _, _, hset⟩ := FilePage.delete_some p ptr p' hpdel
        subst hset
        have : p.is_full = true := by
          simp only [TableFile.lookup] at hold
          rw [hp] at hold
          simpa using hold
        exact this

/-- One full TableFileManager::insert call preserves the file invariant. -/
theorem TableFileManager.manager_insert_inv (f f2 : TableFile) (vl : List ValueExpr)
    (addr : Nat) (sb : List Nat) (hinv : f.inv)
    (hok : TableFileManager.insert f vl addr sb = Except.ok f2) : f2.inv := by
  simp only [TableFileManager.insert] at hok
  obtain ⟨n1, n2, n3, n4, n5⟩ := f.need_new_page_inv hinv
  by_cases hb : (f.need_new_page).2 = true
  · rw [if_pos hb] at hok
    have hfull : (f.need_new_page).1.first_free_page = f.page_sum := n5.mp hb
    have hfull' : (f.need_new_page).1.first_free_page = (f.need_new_page).1.page_sum := by
      rw [n3]; exact hfull
    obtain ⟨a1, _, _, _⟩ := (f.need_new_page).1.add_page_inv addr sb n1 hfull'
    exact (TableFile.insert_inv _ _ vl a1 hok).1
  · rw [if_neg hb] at hok
    exact (TableFile.insert_inv _ _ vl n1 hok).1

/-- The file invariant holds in every state reachable by inserts and
deletes. -/
theorem fileReach_inv (f g : TableFile) (hreach : FileReach f g) (hf : f.inv) :
    g.inv := by
  induction hreach with
  | refl => exact hf
  | insert b f2 vl addr bytes hr hstep ih =>
    exact TableFileManager.manager_insert_inv b f2 vl addr bytes ih hstep
  | delete b f2 ptr hr hstep ih =>
    exact (TableFile.delete_inv b f2 ptr ih hstep).1

/-- C7 (counterexample): after one insert the single page of traceFile1 is
full, yet first_free_page still names it (0 instead of page_sum = 1); and
after two inserts and a delete that frees page 0's only slot (traceFile3),
page 0 is not full — its bitmap bit is 0 — yet first_free_page = 1 and
even page 0's is_full test still reports true, so first_free_page is not
the smallest index of a non-full page. -/
theorem first_free_page_not_least :
    FileReach traceFile0 traceFile1 ∧
    traceFile1.page_sum = 1 ∧
    (traceFile1.lookup 0).map FilePage.is_full = some true ∧
    traceFile1.first_free_page = 0 ∧
    FileReach traceFile0 traceFile3 ∧
    traceFile3.page_sum = 2 ∧
    (traceFile3.lookup 0).map (fun p => p.bitmap.bit 0) = some false ∧
    (traceFile3.lookup 0).map (fun p => p.bitmap.slot_sum) = some 1 ∧
    (traceFile3.lookup 0).map FilePage.is_full = some true ∧
    traceFile3.first_free_page = 1 := by
  have hr1 : FileReach traceFile0 traceFile1 :=
    FileReach.insert traceFile0 traceFile0 traceFile1 [traceNull] 10000 []
      (FileReach.refl traceFile0) (by rfl)
  have hr2 : FileReach traceFile0 traceFile2 :=
    FileReach.insert traceFile0 traceFile1 traceFile2 [traceNull] 20000 [] hr1 (by rfl)
  have hr3 : FileReach traceFile0 traceFile3 :=
    FileReach.delete traceFile0 traceFile2 traceFile3 10009 hr2 (by rfl)
  exact ⟨hr1, by decide, by decide, by decide, hr3, by decide, by decide, by decide,
    by decide, by decide⟩

/-- C7 (amended): for every table file reachable from a fresh file by
inserts and deletes, first_free_page is at most page_sum, every page index
below page_sum is loaded, and every loaded page with index below
first_free_page passes the code's fullness test is_full (first_free_slot =
slot_sum); the need_new_page step run at the start of each insert advances
first_free_page to the smallest page index whose page fails that test (or
to page_sum, which its boolean result reports).  The invariant as
originally stated does not hold: first_free_page is updated only lazily by
the next insert's need_new_page, and after a delete frees a slot in a
lower-indexed page neither that page's is_full test nor first_free_page is
updated (see the counterexample). -/
theorem first_free_page_invariant (td : TupleDesc) (g : TableFile)
    (hreach : FileReach (TableFile.new td) g) :
    (g.first_free_page ≤ g.page_sum ∧
     (∀ i < g.page_sum, (g.lookup i).isSome = true) ∧
     (∀ i < g.first_free_page, (g.lookup i).all FilePage.is_full = true)) ∧
    (g.first_free_page ≤ (g.need_new_page).1.first_free_page ∧
     (g.need_new_page).1.first_free_page ≤ g.page_sum ∧
     (∀ i < (g.need_new_page).1.first_free_page,
       ∃ p, g.lookup i = some p ∧ p.is_full = true) ∧
     ((g.need_new_page).1.first_free_page < g.page_sum →
       ∀ p, g.lookup (g.need_new_page).1.first_free_page = some p →
         p.is_full = false) ∧
     ((g.need_new_page).2 = true ↔ (g.need_new_page).1.first_free_page = g.page_sum)) := by
  have hstart : (TableFile.new td).inv := by
    refine ⟨le_refl _, ?_, ?_, ?_⟩
    · intro i hi
      exact absurd hi (by simp [TableFile.new])
    · intro e he
      exact absurd he (by simp [TableFile.new])
    · intro i hi
      exact absurd hi (by simp [TableFile.new])
  have hinv := fileReach_inv _ _ hreach hstart
  obtain ⟨h1, h2, h3, h4⟩ := hinv
  obtain ⟨s1, s2, s3, s4⟩ :=
    g.nnp_go_spec (g.page_sum - g.first_free_page) g.first_free_page (by omega)
  have hffp' : (g.need_new_page).1.first_free_page
      = g.nnp_go g.first_free_page (g.page_sum - g.first_free_page) := rfl
  refine ⟨⟨h1, h2, h4⟩, ?_, ?_, ?_, ?_, ?_⟩
  · rw [hffp']
    exact s1
  · rw [hffp']
    exact s2
  · intro i hi
    rw [hffp'] at hi
    by_cases hlow : i < g.first_free_page
    · have hs := h2 i (by omega)
      have hall := h4 i hlow
      cases hlook : g.lookup i with
      | none => rw [hlook] at hs; exact absurd hs (by simp)
      | some p =>
        refine ⟨p, rfl, ?_⟩
        rw [hlook] at hall
        simpa using hall
    · exact s3 i (by omega) hi
  · intro hlt p hp
    rw [hffp'] at hlt hp
    exact s4 hlt p hp
  · simp only [TableFile.need_new_page]
    exact ⟨fun h => by simpa using h, fun h => by simpa using h⟩

/-- C7 (witness for the amended theorem): instantiation at the reachable
one-page file traceFile1. -/
theorem first_free_page_invariant_witness :
    FileReach (TableFile.new traceFileTd) traceFile1 ∧
    ((traceFile1.first_free_page ≤ traceFile1.page_sum ∧
     (∀ i < traceFile1.page_sum, (traceFile1.lookup i).isSome = true) ∧
     (∀ i < traceFile1.first_free_page,
       (traceFile1.lookup i).all FilePage.is_full = true)) ∧
    (traceFile1.first_free_page ≤ (traceFile1.need_new_page).1.first_free_page ∧
     (traceFile1.need_new_page).1.first_free_page ≤ traceFile1.page_sum ∧
     (∀ i < (traceFile1.need_new_page).1.first_free_page,
       ∃ p, traceFile1.lookup i = some p ∧ p.is_full = true) ∧
     ((traceFile1.need_new_page).1.first_free_page < traceFile1.page_sum →
       ∀ p, traceFile1.lookup (traceFile1.need_new_page).1.first_free_page = some p →
         p.is_full = false) ∧
     ((traceFile1.need_new_page).2 = true ↔
       (traceFile1.need_new_page).1.first_free_page = traceFile1.page_sum))) :=
  ⟨FileReach.insert traceFile0 traceFile0 traceFile1 [traceNull] 10000 []
      (FileReach.refl traceFile0) (by rfl),
   first_free_page_invariant traceFileTd traceFile1
     (FileReach.insert traceFile0 traceFile0 traceFile1 [traceNull] 10000 []
       (FileReach.refl traceFile0) (by rfl))⟩

/-- C9: TableFile::delete with a pointer inside no loaded page returns
normally as a silent no-op: the resulting file is the unchanged input — no
bitmap bit, header field, tuple byte or counter of any page is modified
and no error is raised. -/
theorem tablefile_delete_missing_noop (f : TableFile) (ptr : Nat)
    (h : ∀ e ∈ f.loaded_pages, e.2.is_in_page ptr = false) :
    f.delete ptr = some f := by
  unfold TableFile.delete
  rw [pages_delete_noop ptr f.loaded_pages h]
  rfl

/-- C9 (witness): deleting at address 20000 in traceFile1, whose only page
occupies addresses 10000..14095, leaves the file untouched. -/
theorem tablefile_delete_missing_noop_witness :
    (∀ e ∈ traceFile1.loaded_pages, e.2.is_in_page 20000 = false) ∧
    traceFile1.delete 20000 = some traceFile1 :=
  ⟨by decide, tablefile_delete_missing_noop traceFile1 20000 (by decide)⟩

/-- C6 (counterexample): deleting through a pointer 2 bytes past the start
of an occupied slot — not on a slot boundary, since the tuple width is
4 — succeeds without any assertion failure, deleting slot 0. -/
theorem delete_no_boundary_assert :
    tracePage1.tuple_len = 4 ∧
    (tracePage1.tuple_data + 2 - tracePage1.tuple_data) % tracePage1.tuple_len = 2 ∧
    tracePage1.bitmap.bit 0 = true ∧
    (tracePage1.delete (tracePage1.tuple_data + 2)).isSome = true := by
  decide

/-- C6 (amended): FilePage::delete(ptr) computes the slot index as the
pointer's byte offset from the start of the slot region divided by
tuple_len, and fails with an assertion exactly when the addressed slot is
unoccupied or out of range — it does not check that the pointer falls on a
slot boundary; on a successful delete the slot-region bytes and the header
are unmodified (the tuple bytes are not zeroed) and only the addressed
occupancy bit changes. -/
theorem filepage_delete_spec (p : FilePage) (ptr : Nat) (hwf : p.bitmap.wf)
    (hge : p.tuple_data ≤ ptr) :
    match p.delete ptr with
    | some q =>
      (ptr - p.tuple_data) / p.tuple_len < p.bitmap.slot_sum ∧
      p.bitmap.bit ((ptr - p.tuple_data) / p.tuple_len) = true ∧
      q.header = p.header ∧ q.slot_bytes = p.slot_bytes ∧
      q.bitmap.bit ((ptr - p.tuple_data) / p.tuple_len) = false ∧
      (∀ j, j ≠ (ptr - p.tuple_data) / p.tuple_len → q.bitmap.bit j = p.bitmap.bit j)
    | none =>
      ¬((ptr - p.tuple_data) / p.tuple_len < p.bitmap.slot_sum ∧
        p.bitmap.bit ((ptr - p.tuple_data) / p.tuple_len) = true) := by
  cases hdel : p.delete ptr with
  | some q =>
    obtain ⟨hhd, hsb, hwf', hsl, hbits⟩ := FilePage.delete_state p ptr q hwf hdel
    obtain ⟨_, hlt, hbit, _⟩ := FilePage.delete_some p ptr q hdel
    refine ⟨hlt, hbit, hhd, hsb, ?_, ?_⟩
    · rw [hbits]
      simp
    · intro j hj
      rw [hbits, if_neg hj]
  | none =>
    simp only [FilePage.delete] at hdel
    split at hdel
    · omega
    · split at hdel
      · exact absurd hdel (by simp)
      · rename_i hcond
        exact hcond

/-- C6 (witness for the amended theorem): the non-boundary pointer 2 bytes
into slot 0 of tracePage1. -/
theorem filepage_delete_spec_witness :
    (tracePage1.bitmap.wf ∧ tracePage1.tuple_data ≤ tracePage1.tuple_data + 2) ∧
    (match tracePage1.delete (tracePage1.tuple_data + 2) with
     | some q =>
       (tracePage1.tuple_data + 2 - tracePage1.tuple_data) / tracePage1.tuple_len
           < tracePage1.bitmap.slot_sum ∧
       tracePage1.bitmap.bit
           ((tracePage1.tuple_data + 2 - tracePage1.tuple_data) / tracePage1.tuple_len)
           = true ∧
       q.header = tracePage1.header ∧ q.slot_bytes = tracePage1.slot_bytes ∧
       q.bitmap.bit
           ((tracePage1.tuple_data + 2 - tracePage1.tuple_data) / tracePage1.tuple_len)
           = false ∧
       (∀ j, j ≠ (tracePage1.tuple_data + 2 - tracePage1.tuple_data) / tracePage1.tuple_len →
         q.bitmap.bit j = tracePage1.bitmap.bit j)
     | none =>
       ¬((tracePage1.tuple_data + 2 - tracePage1.tuple_data) / tracePage1.tuple_len
           < tracePage1.bitmap.slot_sum ∧
         tracePage1.bitmap.bit
           ((tracePage1.tuple_data + 2 - tracePage1.tuple_data) / tracePage1.tuple_len)
           = true)) :=
  ⟨⟨by decide, by decide⟩,
   filepage_delete_spec tracePage1 (tracePage1.tuple_data + 2) (by decide) (by decide)⟩

/-- Unpacking of the pages_wf clause at one loaded page. -/
theorem TableFile.pages_wf_at (f : TableFile) (hwf : f.pages_wf) (i : Nat)
    (hi : i < f.page_sum) :
    ∃ page, f.lookup i = some page ∧ page.bitmap.wf ∧
      page.bitmap.slot_sum = f.get_page_slot_sum := by
  obtain ⟨hsome, hall⟩ := hwf i hi
  cases hlook : f.lookup i with
  | none => rw [hlook] at hsome; exact absurd hsome (by simp)
  | some page =>
    rw [hlook] at hall
    simp only [Option.all_some, Bool.and_eq_true, decide_eq_true_eq, beq_iff_eq] at hall
    exact ⟨page, rfl, hall.1, hall.2⟩

/-- Correctness of the page-scan loop of get_next_position: starting from
a position whose prefix back to start is unoccupied, it finds the least
occupied position at or after start, or reports none when every position
up to the end of the file is free. -/
theorem TableFile.gnp_go_spec (f : TableFile) (hS : 0 < f.get_page_slot_sum)
    (hwf : f.pages_wf) :
    ∀ k page_index tuple_index start,
    f.page_sum ≤ page_index + k →
    tuple_index ≤ f.get_page_slot_sum →
    start ≤ page_index * f.get_page_slot_sum + tuple_index →
    (∀ q, start ≤ q → q < page_index * f.get_page_slot_sum + tuple_index →
      f.occupied q = false) →
    match f.gnp_go f.get_page_slot_sum page_index tuple_index k with
    | some pos =>
      start ≤ pos ∧ pos < f.page_sum * f.get_page_slot_sum ∧
      f.occupied pos = true ∧
      ∀ q, start ≤ q → q < pos → f.occupied q = false
    | none =>
      ∀ q, start ≤ q → q < f.page_sum * f.get_page_slot_sum →
        f.occupied q = false := by
  intro k
  induction k with
  | zero =>
    intro page_index tuple_index start hk hti hs hinv
    simp only [TableFile.gnp_go]
    intro q hq1 hq2
    exact hinv q hq1 (by nlinarith)
  | succ k ih =>
    intro page_index tuple_index start hk hti hs hinv
    by_cases hpi : page_index < f.page_sum
    · obtain ⟨page, hlook, hpwf, hpsl⟩ := f.pages_wf_at hwf page_index hpi
      have hnti := next_tuple_index_spec page.bitmap hpwf tuple_index
      have hstep : f.gnp_go f.get_page_slot_sum page_index tuple_index (k + 1)
          = match f.next_tuple_index page_index tuple_index with
            | some i => some (page_index * f.get_page_slot_sum + i)
            | none => f.gnp_go f.get_page_slot_sum (page_index + 1) 0 k := by
        simp [TableFile.gnp_go, hpi]
      rw [hstep]
      have hocc : ∀ m, m < f.get_page_slot_sum →
          f.occupied (page_index * f.get_page_slot_sum + m) = page.bitmap.bit m := by
        intro m hm
        unfold TableFile.occupied
        have hd : (page_index * f.get_page_slot_sum + m) / f.get_page_slot_sum
            = page_index := by
          rw [Nat.mul_comm]
          rw [Nat.mul_add_div hS, Nat.div_eq_of_lt hm]
          omega
        have hm' : (page_index * f.get_page_slot_sum + m) % f.get_page_slot_sum = m := by
          rw [Nat.mul_comm, Nat.mul_add_mod, Nat.mod_eq_of_lt hm]
        rw [hd, hm', hlook]
      rcases hnti with ⟨hr1, hr2, hr3, hr4⟩ | ⟨hr1, hr2⟩
      · have hrS : page.bitmap.next_tuple_index tuple_index ≠ f.get_page_slot_sum := by
          rw [← hpsl]; omega
        have hnext : f.next_tuple_index page_index tuple_index
            = some (page.bitmap.next_tuple_index tuple_index) := by
          simp [TableFile.next_tuple_index, hlook, hrS]
        rw [hnext]
        have hrlt : page.bitmap.next_tuple_index tuple_index < f.get_page_slot_sum := by
          rw [← hpsl]; exact hr2
        refine ⟨by omega, ?_, ?_, ?_⟩
        · have : page_index * f.get_page_slot_sum + f.get_page_slot_sum
              ≤ f.page_sum * f.get_page_slot_sum := by
            have : page_index + 1 ≤ f.page_sum := hpi
            nlinarith
          omega
        · rw [hocc _ hrlt]
          exact hr3
        · intro q hq1 hq2
          by_cases hq3 : q < page_index * f.get_page_slot_sum + tuple_index
          · exact hinv q hq1 hq3
          · have hqm : q = page_index * f.get_page_slot_sum
                + (q - page_index * f.get_page_slot_sum) := by omega
            have hmlt : q - page_index * f.get_page_slot_sum < f.get_page_slot_sum := by
              omega
            rw [hqm, hocc _ hmlt]
            exact hr4 _ (by omega) (by omega)
      · have hnext : f.next_tuple_index page_index tuple_index = none := by
          simp [TableFile.next_tuple_index, hlook, hr1, hpsl]
        rw [hnext]
        have hext : ∀ q, start ≤ q →
            q < (page_index + 1) * f.get_page_slot_sum + 0 → f.occupied q = false := by
          intro q hq1 hq2
          by_cases hq3 : q < page_index * f.get_page_slot_sum + tuple_index
          · exact hinv q hq1 hq3
          · have hmlt : q - page_index * f.get_page_slot_sum < f.get_page_slot_sum := by
              have h2' : q < page_index * f.get_page_slot_sum + f.get_page_slot_sum := by
                have h3 := hq2
                rw [Nat.add_mul, Nat.one_mul] at h3
                omega
              omega
            have hqm : q = page_index * f.get_page_slot_sum
                + (q - page_index * f.get_page_slot_sum) := by omega
            rw [hqm, hocc _ hmlt]
            refine hr2 _ (by omega) ?_
            rw [hpsl]
            omega
        have := ih (page_index + 1) 0 start (by omega) (by omega) (by nlinarith) hext
        simpa using this
    · have hstep : f.gnp_go f.get_page_slot_sum page_index tuple_index (k + 1) = none := by
        simp [TableFile.gnp_go, hpi]
      rw [hstep]
      intro q hq1 hq2
      refine hinv q hq1 ?_
      have : f.page_sum * f.get_page_slot_sum ≤ page_index * f.get_page_slot_sum := by
        have : f.page_sum ≤ page_index := by omega
        exact Nat.mul_le_mul_right _ this
      omega

/-- C4: for every table file whose pages are all loaded (with well-formed
bitmaps of the table's slot count) and every start position,
TableFileManager::get_next_position returns the smallest logical position
pos at or after start (pos = page_index * slot_sum + slot_index) whose
slot is occupied, and returns none when no occupied slot at or after start
exists among the page_sum pages; scanning pages in ascending index and
later pages from slot 0, so a full scan enumerates occupied slots in
ascending (page_index, slot_index) order. -/
theorem get_next_position_spec (f : TableFile) (start : Nat)
    (hS : 0 < f.get_page_slot_sum) (hwf : f.pages_wf) :
    match f.get_next_position start with
    | some pos =>
      start ≤ pos ∧ pos < f.page_sum * f.get_page_slot_sum ∧
      f.occupied pos = true ∧
      ∀ q, start ≤ q → q < pos → f.occupied q = false
    | none =>
      ∀ q, start ≤ q → q < f.page_sum * f.get_page_slot_sum →
        f.occupied q = false := by
  have heq : start / f.get_page_slot_sum * f.get_page_slot_sum
      + start % f.get_page_slot_sum = start := by
    rw [Nat.mul_comm]
    exact Nat.div_add_mod start f.get_page_slot_sum
  have hmain := f.gnp_go_spec hS hwf (f.page_sum - start / f.get_page_slot_sum)
    (start / f.get_page_slot_sum) (start % f.get_page_slot_sum) start
    (by omega)
    (le_of_lt (Nat.mod_lt _ hS))
    (by omega)
    (fun q hq1 hq2 => absurd hq1 (by omega))
  exact hmain

/-- C4 (witness): the two-page file traceFile2, both slots occupied; the
scan from position 0 returns position 0. -/
theorem get_next_position_spec_witness :
    (0 < traceFile2.get_page_slot_sum ∧ traceFile2.pages_wf) ∧
    (match traceFile2.get_next_position 0 with
     | some pos =>
       0 ≤ pos ∧ pos < traceFile2.page_sum * traceFile2.get_page_slot_sum ∧
       traceFile2.occupied pos = true ∧
       ∀ q, 0 ≤ q → q < pos → traceFile2.occupied q = false
     | none =>
       ∀ q, 0 ≤ q → q < traceFile2.page_sum * traceFile2.get_page_slot_sum →
         traceFile2.occupied q = false) :=
  ⟨⟨by decide, by decide⟩, get_next_position_spec traceFile2 0 (by decide) (by decide)⟩

/-- The modelled semantic check reports TypeMismatch whenever some value's
literal type is incompatible with its attribute type. -/
theorem check_insert_values_mismatch :
    ∀ (vl : List ValueExpr) (ds : List AttrType) (i : Nat) (v : ValueExpr) (d : AttrType),
    vl.get? i = some v → ds.get? i = some d →
    value_matches v.value_type d = false →
    check_insert_values vl ds = some SemError.TypeMismatch := by
  intro vl
  induction vl with
  | nil => intro ds i v d hv _ _; exact absurd hv (by simp)
  | cons v0 vs ih =>
    intro ds i v d hv hd hmis
    cases ds with
    | nil => exact absurd hd (by simp)
    | cons d0 ds =>
      by_cases hm : value_matches v0.value_type d0 = true
      · simp only [check_insert_values, if_pos hm]
        cases i with
        | zero =>
          simp only [List.get?_cons_zero] at hv hd
          injection hv with hv
          injection hd with hd
          rw [hv, hd] at hm
          rw [hm] at hmis
          exact absurd hmis (by simp)
        | succ j =>
          simp only [List.get?_cons_succ] at hv hd
          exact ih ds j v d hv hd hmis
      · simp only [check_insert_values, if_neg hm]

/-- The value loop of FilePage::insert aborts (the panic arm, or an
earlier failing conversion) whenever some pair of the zipped lists is
incompatible. -/
theorem insert_values_mismatch_error :
    ∀ (vl : List ValueExpr) (ds : List AttrType) (i : Nat) (v : ValueExpr) (d : AttrType),
    vl.get? i = some v → ds.get? i = some d →
    value_matches v.value_type d = false →
    ∀ (p : FilePage) (off : Nat), ∃ q, p.insert_values off vl ds = Except.error q := by
  intro vl
  induction vl with
  | nil => intro ds i v d hv _ _ _ _; exact absurd hv (by simp)
  | cons v0 vs ih =>
    intro ds i v d hv hd hmis p off
    cases ds with
    | nil => exact absurd hd (by simp)
    | cons d0 ds =>
      obtain ⟨val0, vt0⟩ := v0
      have hzero : i = 0 →
          value_matches (ValueExpr.mk val0 vt0).value_type d0 = false := by
        intro hi
        subst hi
        simp only [List.get?_cons_zero] at hv hd
        injection hv with hv
        injection hd with hd
        rw [← hv, ← hd] at hmis
        exact hmis
      have hsucc : ∀ j, i = j + 1 → vs.get? j = some v ∧ ds.get? j = some d := by
        intro j hi
        subst hi
        simp only [List.get?_cons_succ] at hv hd
        exact ⟨hv, hd⟩
      cases vt0 <;> cases d0
      case Integer.Int =>
        cases i with
        | zero => exact absurd (hzero rfl) (by simp [value_matches])
        | succ j =>
          obtain ⟨hv', hd'⟩ := hsucc j rfl
          cases hp : parse_i32 val0 with
          | none =>
            exact ⟨p, by simp [FilePage.insert_values, hp]⟩
          | some n =>
            obtain ⟨q, hq⟩ := ih ds j v d hv' hd' hmis
              (p.write_bytes off (i32_bytes n)) (off + 4)
            exact ⟨q, by simp [FilePage.insert_values, hp, hq]⟩
      case Integer.Float =>
        cases i with
        | zero => exact absurd (hzero rfl) (by simp [value_matches])
        | succ j =>
          obtain ⟨hv', hd'⟩ := hsucc j rfl
          obtain ⟨q, hq⟩ := ih ds j v d hv' hd' hmis
            (p.write_bytes off (f32_bytes val0)) (off + 4)
          exact ⟨q, by simp [FilePage.insert_values, hq]⟩
      case Integer.Char len => exact ⟨p, by simp [FilePage.insert_values]⟩
      case Float.Int => exact ⟨p, by simp [FilePage.insert_values]⟩
      case Float.Float =>
        cases i with
        | zero => exact absurd (hzero rfl) (by simp [value_matches])
        | succ j =>
          obtain ⟨hv', hd'⟩ := hsucc j rfl
          obtain ⟨q, hq⟩ := ih ds j v d hv' hd' hmis
            (p.write_bytes off (f32_bytes val0)) (off + 4)
          exact ⟨q, by simp [FilePage.insert_values, hq]⟩
      case Float.Char len => exact ⟨p, by simp [FilePage.insert_values]⟩
      case String.Int => exact ⟨p, by simp [FilePage.insert_values]⟩
      case String.Float => exact ⟨p, by simp [FilePage.insert_values]⟩
      case String.Char len =>
        cases i with
        | zero => exact absurd (hzero rfl) (by simp [value_matches])
        | succ j =>
          obtain ⟨hv', hd'⟩ := hsucc j rfl
          obtain ⟨q, hq⟩ := ih ds j v d hv' hd' hmis
            (p.write_bytes off (write_string_bytes val0 len ((len + 3) / 4 * 4)))
            (off + (len + 3) / 4 * 4)
          exact ⟨q, by simp [FilePage.insert_values, hq]⟩
      case Null.Int =>
        cases i with
        | zero => exact absurd (hzero rfl) (by simp [value_matches])
        | succ j =>
          obtain ⟨hv', hd'⟩ := hsucc j rfl
          obtain ⟨q, hq⟩ := ih ds j v d hv' hd' hmis
            (p.write_bytes off [0, 0, 0, 0]) (off + 4)
          exact ⟨q, by simp [FilePage.insert_values, hq]⟩
      case Null.Float =>
        cases i with
        | zero => exact absurd (hzero rfl) (by simp [value_matches])
        | succ j =>
          obtain ⟨hv', hd'⟩ := hsucc j rfl
          obtain ⟨q, hq⟩ := ih ds j v d hv' hd' hmis
            (p.write_bytes off [0, 0, 0, 0]) (off + 4)
          exact ⟨q, by simp [FilePage.insert_values, hq]⟩
      case Null.Char len =>
        cases i with
        | zero => exact absurd (hzero rfl) (by simp [value_matches])
        | succ j =>
          obtain ⟨hv', hd'⟩ := hsucc j rfl
          obtain ⟨q, hq⟩ := ih ds j v d hv' hd' hmis
            (p.write_bytes off (List.replicate ((len + 3) / 4 * 4) 0))
            (off + (len + 3) / 4 * 4)
          exact ⟨q, by simp [FilePage.insert_values, hq]⟩

/-- When its three entry assertions hold, FilePage::insert proceeds to the
mark-and-write phase. -/
theorem FilePage.insert_eq (p : FilePage) (vl : List ValueExpr) (td : TupleDesc)
    (h1 : p.header.first_free_slot < p.bitmap.slot_sum)
    (h2 : p.bitmap.bit p.header.first_free_slot = false)
    (h3 : vl.length = td.attr_desc.length) :
    p.insert vl td = p.insert_mark.insert_values
      (td.tuple_len * p.header.first_free_slot) vl td.attr_desc := by
  unfold FilePage.insert
  rw [if_neg (by omega),
    if_neg (by simp [FilePage.is_inuse, BitMap.is_inuse, h2]),
    if_neg (by simp [h3])]

/-- C5: for every insert whose value list contains a value whose literal
type does not match the corresponding attribute's declared type, the
modelled semantic check rejects the statement with TypeMismatch; moreover
the storage layer's own value loop (the cited match in FilePage::insert)
can never complete on such a list — with the entry assertions passing, the
insert aborts in the value phase. -/
theorem insert_type_mismatch (vl : List ValueExpr) (ds : List AttrType)
    (i : Nat) (v : ValueExpr) (d : AttrType)
    (hv : vl.get? i = some v) (hd : ds.get? i = some d)
    (hmis : value_matches v.value_type d = false) :
    check_insert_values vl ds = some SemError.TypeMismatch ∧
    (∀ (p : FilePage) (off : Nat), ∃ q, p.insert_values off vl ds = Except.error q) ∧
    (∀ (p : FilePage) (td : TupleDesc), td.attr_desc = ds →
      p.header.first_free_slot < p.bitmap.slot_sum →
      p.bitmap.bit p.header.first_free_slot = false →
      vl.length = td.attr_desc.length →
      ∃ q, p.insert vl td = Except.error q) := by
  refine ⟨check_insert_values_mismatch vl ds i v d hv hd hmis,
    insert_values_mismatch_error vl ds i v d hv hd hmis, ?_⟩
  intro p td hds ha1 ha2 ha3
  obtain ⟨q, hq⟩ := insert_values_mismatch_error vl ds i v d hv hd hmis
    p.insert_mark (td.tuple_len * p.header.first_free_slot)
  refine ⟨q, ?_⟩
  rw [FilePage.insert_eq p vl td ha1 ha2 ha3, hds]
  exact hq

/-- C5 (witness): a string literal supplied for an integer column. -/
theorem insert_type_mismatch_witness :
    ([ValueExpr.mk "abc" ValueType.String].get? 0 = some (ValueExpr.mk "abc" ValueType.String) ∧
     [AttrType.Int].get? 0 = some AttrType.Int ∧
     value_matches (ValueExpr.mk "abc" ValueType.String).value_type AttrType.Int = false) ∧
    (check_insert_values [ValueExpr.mk "abc" ValueType.String] [AttrType.Int]
        = some SemError.TypeMismatch ∧
     (∀ (p : FilePage) (off : Nat),
       ∃ q, p.insert_values off [ValueExpr.mk "abc" ValueType.String] [AttrType.Int]
          = Except.error q) ∧
     (∀ (p : FilePage) (td : TupleDesc), td.attr_desc = [AttrType.Int] →
       p.header.first_free_slot < p.bitmap.slot_sum →
       p.bitmap.bit p.header.first_free_slot = false →
       [ValueExpr.mk "abc" ValueType.String].length = td.attr_desc.length →
       ∃ q, p.insert [ValueExpr.mk "abc" ValueType.String] td = Except.error q)) :=
  ⟨⟨by decide, by decide, by decide⟩,
   insert_type_mismatch [ValueExpr.mk "abc" ValueType.String] [AttrType.Int] 0
     (ValueExpr.mk "abc" ValueType.String) AttrType.Int
     (by decide) (by decide) (by decide)⟩

/-- C10: FilePage::insert marks the target slot occupied, recomputes
first_free_slot and flushes the header before parsing or writing any
value; consequently, whenever the value phase aborts (for example an
integer literal that does not fit in an i32, whose parse unwrap fails),
the page at the abort carries the slot already marked occupied and the
header already advanced to the rescan result — the page is not left
unchanged. -/
theorem insert_error_partial_state (p q : FilePage) (vl : List ValueExpr) (td : TupleDesc)
    (hwf : p.bitmap.wf)
    (h1 : p.header.first_free_slot < p.bitmap.slot_sum)
    (h2 : p.bitmap.bit p.header.first_free_slot = false)
    (h3 : vl.length = td.attr_desc.length)
    (herr : p.insert vl td = Except.error q) :
    q.bitmap.bit p.header.first_free_slot = true ∧
    q.header.first_free_slot
      = (p.bitmap.set_inuse p.header.first_free_slot true).get_first_free_slot ∧
    q.bitmap ≠ p.bitmap := by
  rw [FilePage.insert_eq p vl td h1 h2 h3] at herr
  have hf := FilePage.insert_values_frame vl td.attr_desc
    (td.tuple_len * p.header.first_free_slot) p.insert_mark
  rw [herr] at hf
  simp only [exceptState] at hf
  have hbm : q.bitmap = p.bitmap.set_inuse p.header.first_free_slot true := hf.2.1
  have hbit : q.bitmap.bit p.header.first_free_slot = true := by
    rw [hbm, p.bitmap.bit_set_inuse hwf _ (lt_of_lt_of_le h1 p.bitmap.slot_sum_le) true,
      if_pos rfl]
  refine ⟨hbit, ?_, ?_⟩
  · rw [hf.1]
    rfl
  · intro hcontra
    rw [hcontra] at hbit
    rw [h2] at hbit
    exact Bool.noConfusion hbit

/-- C10 (witness): inserting the literal 2147483648 — one past the
largest i32 — into the fresh page aborts with slot 0 marked occupied and
the header advanced to 1. -/
theorem insert_error_partial_state_witness :
    (tracePage0.bitmap.wf ∧
     tracePage0.header.first_free_slot < tracePage0.bitmap.slot_sum ∧
     tracePage0.bitmap.bit tracePage0.header.first_free_slot = false ∧
     [traceBig].length = traceTd.attr_desc.length ∧
     tracePage0.insert [traceBig] traceTd = Except.error tracePageErr ∧
     parse_i32 traceBig.value = none) ∧
    (tracePageErr.bitmap.bit tracePage0.header.first_free_slot = true ∧
     tracePageErr.header.first_free_slot
       = (tracePage0.bitmap.set_inuse tracePage0.header.first_free_slot
           true).get_first_free_slot ∧
     tracePageErr.bitmap ≠ tracePage0.bitmap) :=
  ⟨⟨by decide, by decide, by decide, by decide, by rfl, by decide⟩,
   insert_error_partial_state tracePage0 tracePageErr [traceBig] traceTd
     (by decide) (by decide) (by decide) (by decide) (by rfl)⟩

/-- Pushing a newline is appending the one-character newline string. -/
theorem push_newline_eq (s : String) : s.push '\n' = s ++ "\n" := by
  cases s
  rfl

/-- Popping the newline just pushed restores the string. -/
theorem str_pop_push (s : String) : str_pop (s.push '\n') = s := by
  cases s with
  | mk data =>
    simp [str_pop, String.push, List.dropLast_concat]

/-- The accumulator form of the error-formatting fold equals the
accumulator form of String.intercalate. -/
theorem handle_sql_err_go :
    ∀ (l : List CompileError) (acc : String),
    str_pop (List.foldl (fun msg err => (msg ++ fmt_sql_err err).push '\n')
        (acc.push '\n') l)
      = String.intercalate.go acc "\n" (l.map fmt_sql_err) := by
  intro l
  induction l with
  | nil =>
    intro acc
    simp only [List.foldl_nil, List.map_nil, String.intercalate.go]
    exact str_pop_push acc
  | cons e l ih =>
    intro acc
    simp only [List.foldl_cons, List.map_cons, String.intercalate.go]
    rw [push_newline_eq acc]
    rw [← ih (acc ++ "\n" ++ fmt_sql_err e)]

/-- C8: handle_sql_err formats each known-token entry as
"ErrorKind column `token-text`: message", each unknown-token entry as
"ErrorKind: message", and joins the entries with single newlines and no
trailing newline; handle_exec_err formats an execution error as
"ErrorKind: message". -/
theorem handle_err_format (err_list : List CompileError) (h : err_list ≠ []) :
    handle_sql_err err_list
      = String.intercalate "\n" (err_list.map (fun err =>
          match err.token.token_type with
          | TokenType.UnKnown => err.error_type ++ ": " ++ err.error_msg
          | TokenType.Known =>
            err.error_type ++ " " ++ toString err.token.column ++ " `" ++
              err.token.value ++ "`: " ++ err.error_msg)) ∧
    (∀ e : ExecError, handle_exec_err e = e.error_type ++ ": " ++ e.error_msg) := by
  constructor
  · have hmap : (fun err : CompileError =>
        match err.token.token_type with
        | TokenType.UnKnown => err.error_type ++ ": " ++ err.error_msg
        | TokenType.Known =>
          err.error_type ++ " " ++ toString err.token.column ++ " `" ++
            err.token.value ++ "`: " ++ err.error_msg) = fmt_sql_err := by
      funext err
      rfl
    rw [hmap]
    cases err_list with
    | nil => exact absurd rfl h
    | cons e rest =>
      have h0 : ("" : String) ++ fmt_sql_err e = fmt_sql_err e := by
        cases hfe : fmt_sql_err e
        rfl
      simp only [handle_sql_err, List.foldl_cons, List.map_cons, String.intercalate]
      rw [h0]
      exact handle_sql_err_go rest (fmt_sql_err e)
  · intro e
    rfl

/-- C8 (witness): one known-token entry and one unknown-token entry. -/
theorem handle_err_format_witness :
    ([CompileError.mk "LexerInvalidChar" (Token.mk TokenType.Known 5 "ch") "invalid char",
      CompileError.mk "ParserNoMoreToken" (Token.mk TokenType.UnKnown 0 "") "no more token"]
        ≠ []) ∧
    (handle_sql_err
        [CompileError.mk "LexerInvalidChar" (Token.mk TokenType.Known 5 "ch") "invalid char",
         CompileError.mk "ParserNoMoreToken" (Token.mk TokenType.UnKnown 0 "") "no more token"]
      = String.intercalate "\n"
          (([CompileError.mk "LexerInvalidChar" (Token.mk TokenType.Known 5 "ch")
              "invalid char",
             CompileError.mk "ParserNoMoreToken" (Token.mk TokenType.UnKnown 0 "")
              "no more token"]).map (fun err =>
            match err.token.token_type with
            | TokenType.UnKnown => err.error_type ++ ": " ++ err.error_msg
            | TokenType.Known =>
              err.error_type ++ " " ++ toString err.token.column ++ " `" ++
                err.token.value ++ "`: " ++ err.error_msg)) ∧
     (∀ e : ExecError, handle_exec_err e = e.error_type ++ ": " ++ e.error_msg)) :=
  ⟨by decide,
   handle_err_format
     [CompileError.mk "LexerInvalidChar" (Token.mk TokenType.Known 5 "ch") "invalid char",
      CompileError.mk "ParserNoMoreToken" (Token.mk TokenType.UnKnown 0 "") "no more token"]
     (by decide)⟩
